import Mathlib

/-!
# probe: geometry algebra, window and display record builders, version parsing

A shallow embedding of the unification core of the `probe` library
(`src/graphics/graphic.cpp`, `src/graphics/display_linux.cpp`,
`src/system/system-windows.cpp`, `include/probe/types.h`) together with the
properties established about it.

Machine integers are unbounded `Int`/`Nat` values; every place where the C++
arithmetic is carried out at a fixed width is made explicit with `wrap32`
(`int32_t`), `toU32` (`uint32_t`) or a `%` by the width of the type.
-/

namespace probe

/-! ## Fixed-width arithmetic -/

/-- Two's-complement reading of an integer as an `int32_t`. -/
def wrap32 (z : Int) : Int := (z + 2147483648) % 4294967296 - 2147483648

/-- Value of `static_cast<uint32_t>` applied to an integer. -/
def toU32 (z : Int) : Nat := (z % 4294967296).toNat

/-- The integer is representable as an `int32_t`. -/
def inInt32 (z : Int) : Prop := -2147483648 ≤ z ∧ z ≤ 2147483647

instance (z : Int) : Decidable (inInt32 z) := by
  unfold inInt32; exact inferInstance

/-! ## Double-precision arithmetic

The C++ type `double` is IEEE 754 binary64 with round-to-nearest, ties-to-even.
A finite value is carried as the rational it denotes, and every conversion and
arithmetic operation is followed by `fl`, the rounding to 53 significant bits.
Overflow and subnormal results are left out: they cannot arise from the
integers and the constants that the code combines. -/

/-- The rational `2 ^ k` for an integer exponent. -/
def pow2 (k : Int) : ℚ :=
  if 0 ≤ k then ((2 ^ k.toNat : Nat) : ℚ) else 1 / ((2 ^ (-k).toNat : Nat) : ℚ)

/-- The binary exponent of a positive rational: the `e` with
`2 ^ e ≤ x < 2 ^ (e + 1)`. -/
def binade (x : ℚ) : Int :=
  let d : Int := (Nat.log2 x.num.natAbs : Int) - (Nat.log2 x.den : Int)
  if x < pow2 d then d - 1 else d

/-- Rounding of a rational to the nearest integer, a tie going to the even
neighbour. -/
def round_even (y : ℚ) : Int :=
  let n := ⌊y⌋
  let r := y - n
  if r < 1 / 2 then n else if 1 / 2 < r then n + 1 else if n % 2 = 0 then n else n + 1

/-- Rounding of a positive rational to 53 significant bits. -/
def fl_pos (x : ℚ) : ℚ :=
  (round_even (x / pow2 (binade x - 52)) : ℚ) * pow2 (binade x - 52)

/-- The binary64 value nearest to a rational. -/
def fl (x : ℚ) : ℚ :=
  if x = 0 then 0 else if 0 < x then fl_pos x else - fl_pos (-x)

namespace graphics

/-! ## geometry_t -/

/-- Modelled from the spec: `geometry_t` is declared in `probe/graphics.h`, which
is not among the sources. Section 3 gives it as `x, y` signed 32-bit and
`width, height` unsigned 32-bit, all zero when default-constructed. -/
structure geometry_t where
  x : Int := 0
  y : Int := 0
  width : Nat := 0
  height : Nat := 0
deriving DecidableEq

namespace geometry_t

/-- The four fields are within the ranges of their C++ types. -/
def WF (g : geometry_t) : Prop :=
  inInt32 g.x ∧ inInt32 g.y ∧ g.width < 4294967296 ∧ g.height < 4294967296

instance (g : geometry_t) : Decidable g.WF := by
  unfold WF; exact inferInstance

/-- Modelled from the spec: the accessor `left()` of `probe/graphics.h`;
section 3 gives `left = x`. -/
def left (g : geometry_t) : Int := g.x

/-- Modelled from the spec: the accessor `top()` of `probe/graphics.h`;
section 3 gives `top = y`. -/
def top (g : geometry_t) : Int := g.y

/-- Modelled from the spec: the accessor `right()` of `probe/graphics.h`;
section 3 gives `right = x + width - 1`, an `int32_t`. -/
def right (g : geometry_t) : Int := wrap32 (g.x + (g.width : Int) - 1)

/-- Modelled from the spec: the accessor `bottom()` of `probe/graphics.h`;
section 3 gives `bottom = y + height - 1`, an `int32_t`. -/
def bottom (g : geometry_t) : Int := wrap32 (g.y + (g.height : Int) - 1)

/-- The overload `geometry_t::contains(int32_t, int32_t, bool)`. -/
def contains (g : geometry_t) (_x _y : Int) (proper : Bool) : Bool :=
  if proper then
    (decide (_x > g.left) && decide (_x < g.right)) &&
      (decide (_y > g.top) && decide (_y < g.bottom))
  else
    (decide (_x ≥ g.left) && decide (_x ≤ g.right)) &&
      (decide (_y ≥ g.top) && decide (_y ≤ g.bottom))

/-- The overload `geometry_t::contains(const geometry_t&, bool)`. -/
def contains_geometry (g r : geometry_t) (proper : Bool) : Bool :=
  if proper then
    decide (g.left < r.left) && decide (g.right > r.right) &&
      decide (g.top < r.top) && decide (g.bottom > r.bottom)
  else
    decide (g.left ≤ r.left) && decide (g.right ≥ r.right) &&
      decide (g.top ≤ r.top) && decide (g.bottom ≥ r.bottom)

/-- The free function `operator==(const geometry_t&, const geometry_t&)`. -/
def eq (l r : geometry_t) : Bool :=
  decide (l.x = r.x) && decide (l.y = r.y) && decide (l.width = r.width) &&
    decide (l.height = r.height)

/-- The member `geometry_t::intersected`. The differences `r - l + 1` and
`b - t + 1` are `int32_t` expressions converted to `uint32_t`. -/
def intersected (g otr : geometry_t) : geometry_t :=
  let l := max g.left otr.left
  let t := max g.top otr.top
  let r := min g.right otr.right
  let b := min g.bottom otr.bottom
  if r ≤ l ∨ b ≤ t then
    {}
  else
    { x := l, y := t,
      width := toU32 (wrap32 (wrap32 (r - l) + 1)),
      height := toU32 (wrap32 (wrap32 (b - t) + 1)) }

end geometry_t

/-! ## display_t and the virtual screen -/

/-- Modelled from the spec: the enumeration `orientation_t` of
`probe/graphics.h` (section 3: `rotate_0, 90, 180, 270`). -/
inductive orientation_t where
  | rotate_0
  | rotate_90
  | rotate_180
  | rotate_270
deriving DecidableEq

/-- Modelled from the spec: `display_t` is declared in `probe/graphics.h`;
section 3 lists its fields. The two `double` fields hold the rational that the
`double` denotes. -/
structure display_t where
  name : String := ""
  geometry : geometry_t := {}
  frequency : ℚ := 0
  bpp : Nat := 0
  dpi : Nat := 0
  orientation : orientation_t := orientation_t.rotate_0
  primary : Bool := false
  scale : ℚ := 0

/-- The four accumulators `l, t, r, b` of `virtual_screen_geometry`. -/
structure bounds_t where
  l : Int
  t : Int
  r : Int
  b : Int
deriving DecidableEq

/-- One pass through the body of the `for` loop of `virtual_screen_geometry`.
`display.geometry.x + display.geometry.width - 1` is stored in an `int32_t`. -/
def virtual_screen_step (acc : bounds_t) (display : display_t) : bounds_t :=
  let l := if acc.l > display.geometry.x then display.geometry.x else acc.l
  let t := if acc.t > display.geometry.y then display.geometry.y else acc.t
  let this_r := wrap32 (display.geometry.x + (display.geometry.width : Int) - 1)
  let r := if acc.r < this_r then this_r else acc.r
  let this_b := wrap32 (display.geometry.y + (display.geometry.height : Int) - 1)
  let b := if acc.b < this_b then this_b else acc.b
  { l := l, t := t, r := r, b := b }

/-- The function `virtual_screen_geometry`, over the sequence that `displays()`
returned. The accumulators start at the limits of `int32_t`. -/
def virtual_screen_geometry (displays : List display_t) : geometry_t :=
  let acc := displays.foldl virtual_screen_step
    { l := 2147483647, t := 2147483647, r := -2147483648, b := -2147483648 }
  { x := acc.l, y := acc.t,
    width := toU32 (wrap32 (wrap32 (acc.r - acc.l) + 1)),
    height := toU32 (wrap32 (wrap32 (acc.b - acc.t) + 1)) }

/-- The display's fields fit their types and its right and bottom edges
`x + width - 1`, `y + height - 1` are representable as `int32_t`. -/
def edges_fit (d : display_t) : Prop :=
  d.geometry.WF ∧ inInt32 (d.geometry.x + (d.geometry.width : Int) - 1) ∧
    inInt32 (d.geometry.y + (d.geometry.height : Int) - 1)

instance (d : display_t) : Decidable (edges_fit d) := by
  unfold edges_fit; exact inferInstance

/-- Least element of a list of integers (0 for the empty list). -/
def list_min : List Int → Int
  | [] => 0
  | a :: as => as.foldl min a

/-- Greatest element of a list of integers (0 for the empty list). -/
def list_max : List Int → Int
  | [] => 0
  | a :: as => as.foldl max a

/-- The bounding box as the specification words it: `x` and `y` are the least
`display.x` and `display.y`, and `width`, `height` are the greatest right and
bottom edge minus `x`, `y` plus one, all computed in the integers. -/
def bounding_box_spec (displays : List display_t) (g : geometry_t) : Prop :=
  g.x = list_min (displays.map (fun d => d.geometry.x)) ∧
  g.y = list_min (displays.map (fun d => d.geometry.y)) ∧
  (g.width : Int) =
    list_max (displays.map (fun d => d.geometry.x + (d.geometry.width : Int) - 1)) - g.x + 1 ∧
  (g.height : Int) =
    list_max (displays.map (fun d => d.geometry.y + (d.geometry.height : Int) - 1)) - g.y + 1

instance (displays : List display_t) (g : geometry_t) :
    Decidable (bounding_box_spec displays g) := by
  unfold bounding_box_spec; exact inferInstance

/-! ## window_t and window enumeration -/

/-- The fields of Xlib's `XWindowAttributes` that `windows` reads, all of C
type `int`; `attrs{}` zero-initialises them. -/
structure XWindowAttributes where
  x : Int := 0
  y : Int := 0
  width : Int := 0
  height : Int := 0
  map_state : Int := 0
deriving DecidableEq

/-- What the X server reports for one child of the root window: its identifier,
the attributes left in `attrs` by `XGetWindowAttributes`, and the buffer set by
`XFetchName` (`none` for a null buffer). -/
structure child_t where
  window : Nat
  attrs : XWindowAttributes
  buffer : Option String
deriving DecidableEq

/-- Modelled from the spec: `window_t` is declared in `probe/graphics.h`;
section 3 lists title, reserved process information, geometry, handle and
visibility. The reserved member is always value-initialised by `windows`. -/
structure window_t where
  name : String
  reserved : Unit := ()
  geometry : geometry_t
  handle : Nat
  visible : Bool
deriving DecidableEq

/-- The record that `windows` pushes for one child. `Window` is an unsigned
integer type of at most 64 bits, so the cast to `uint64_t` keeps its value. -/
def window_record (c : child_t) : window_t :=
  { name := match c.buffer with
            | some buffer => buffer
            | none => "",
    geometry := { x := c.attrs.x, y := c.attrs.y,
                  width := toU32 c.attrs.width, height := toU32 c.attrs.height },
    handle := c.window,
    visible := decide (c.attrs.map_state ≥ 2) }

/-- The test `visible && (attrs.map_state < 2 || attrs.width * attrs.height < 4)`
that makes the loop of `windows` skip a child; the product is an `int`. -/
def skipped (visible : Bool) (c : child_t) : Bool :=
  visible && (decide (c.attrs.map_state < 2) ||
    decide (wrap32 (c.attrs.width * c.attrs.height) < 4))

/-- The function `windows`. The argument is `none` when `XOpenDisplay` fails and
otherwise the children that `XQueryTree` lists, bottommost first. The deque is a
list whose head is its front. -/
def windows (server : Option (List child_t)) (visible : Bool) : List window_t :=
  match server with
  | none => []
  | some child_windows =>
    child_windows.foldl
      (fun ret c => if skipped visible c then ret else window_record c :: ret) []

/-- The visibility filter as the specification words it: `windows(true)` is
`windows(false)` without the records whose `visible` field is false or whose
area `width * height` is below 4, the others unchanged and in the same order. -/
def visible_filter_spec (child_windows : List child_t) : Prop :=
  windows (some child_windows) true =
    (windows (some child_windows) false).filter
      (fun w => !(!w.visible || decide (w.geometry.width * w.geometry.height < 4)))

instance (child_windows : List child_t) : Decidable (visible_filter_spec child_windows) := by
  unfold visible_filter_spec; exact inferInstance

/-- The width and height of the child are non-negative `int` values whose
product is representable as an `int`. -/
def area_fits (c : child_t) : Prop :=
  0 ≤ c.attrs.width ∧ c.attrs.width ≤ 2147483647 ∧
  0 ≤ c.attrs.height ∧ c.attrs.height ≤ 2147483647 ∧
  c.attrs.width * c.attrs.height ≤ 2147483647

instance (c : child_t) : Decidable (area_fits c) := by
  unfold area_fits; exact inferInstance

/-! ## Refresh rate -/

/-- The fields of Xrandr's `XRRModeInfo` that `calculate_frequency` reads:
`id` and `dotClock` are `unsigned long` (64-bit), `hTotal` and `vTotal` are
`unsigned int` (32-bit). -/
structure XRRModeInfo where
  id : Nat
  dotClock : Nat
  hTotal : Nat
  vTotal : Nat
deriving DecidableEq

/-- The fields are within the ranges of their C types. -/
def XRRModeInfo.WF (mode : XRRModeInfo) : Prop :=
  mode.id < 18446744073709551616 ∧ mode.dotClock < 18446744073709551616 ∧
    mode.hTotal < 4294967296 ∧ mode.vTotal < 4294967296

instance (mode : XRRModeInfo) : Decidable mode.WF := by
  unfold XRRModeInfo.WF; exact inferInstance

/-- The function `calculate_frequency` over `res->modes[0 .. nmode)`. The
product `1000 * mode.dotClock` is an `unsigned long`, `mode.hTotal * mode.vTotal`
an `unsigned int`; the quotient is an integer division. The result is `none`
when the divisor is zero, where the C++ division is undefined. Otherwise the
quotient is converted to `double` and divided by `1000.0`, each step rounded. -/
def calculate_frequency (modes : List XRRModeInfo) (mode_id : Nat) : Option ℚ :=
  match modes with
  | [] => some 0
  | mode :: rest =>
    if mode.id = mode_id then
      if mode.hTotal ≠ 0 ∧ mode.vTotal ≠ 0 then
        let num := (1000 * mode.dotClock) % 18446744073709551616
        let den := (mode.hTotal * mode.vTotal) % 4294967296
        if den = 0 then none else some (fl (fl ((num / den : Nat) : ℚ) / 1000))
      else some 0
    else calculate_frequency rest mode_id

/-- The refresh rate as the specification words it, for the first mode of the
table with the given id: with both totals nonzero, 1000 times the result is the
integer quotient of `1000 * dotClock` by `hTotal * vTotal`; with a zero total,
or without such a mode, the result is 0. -/
def frequency_spec (modes : List XRRModeInfo) (mode_id : Nat) : Prop :=
  match modes.find? (fun mode => decide (mode.id = mode_id)) with
  | some mode =>
    if mode.hTotal ≠ 0 ∧ mode.vTotal ≠ 0 then
      (calculate_frequency modes mode_id).map (fun f => f * 1000) =
        some (((1000 * mode.dotClock / (mode.hTotal * mode.vTotal) : Nat) : ℚ))
    else calculate_frequency modes mode_id = some 0
  | none => calculate_frequency modes mode_id = some 0

instance (modes : List XRRModeInfo) (mode_id : Nat) :
    Decidable (frequency_spec modes mode_id) := by
  unfold frequency_spec
  split <;> exact inferInstance

/-- Neither `1000 * dotClock` (64-bit) nor `hTotal * vTotal` (32-bit) wraps. -/
def products_fit (mode : XRRModeInfo) : Prop :=
  1000 * mode.dotClock < 18446744073709551616 ∧ mode.hTotal * mode.vTotal < 4294967296

instance (mode : XRRModeInfo) : Decidable (products_fit mode) := by
  unfold products_fit; exact inferInstance

/-- The refresh rate up to the rounding of the `double`, for the first mode of
the table with the given id: with both totals nonzero, the result is defined and
1000 times it differs from the integer quotient `n` of `1000 * dotClock` by
`hTotal * vTotal` by at most `n / 2 ^ 51`; with a zero total, or without such a
mode, the result is 0. -/
def frequency_rounded_spec (modes : List XRRModeInfo) (mode_id : Nat) : Prop :=
  match modes.find? (fun mode => decide (mode.id = mode_id)) with
  | some mode =>
    if mode.hTotal ≠ 0 ∧ mode.vTotal ≠ 0 then
      ∃ r : ℚ, calculate_frequency modes mode_id = some r ∧
        |r * 1000 - ((1000 * mode.dotClock / (mode.hTotal * mode.vTotal) : Nat) : ℚ)| ≤
          ((1000 * mode.dotClock / (mode.hTotal * mode.vTotal) : Nat) : ℚ) / 2 ^ 51
    else calculate_frequency modes mode_id = some 0
  | none => calculate_frequency modes mode_id = some 0

/-! ## Display enumeration -/

/-- The fields of Xrandr's `XRRCrtcInfo` that `displays` reads: `x`, `y` are
`int`, `width`, `height` are `unsigned int`, `mode` is an XID and `rotation` an
`unsigned short`. -/
structure XRRCrtcInfo where
  x : Int
  y : Int
  width : Nat
  height : Nat
  mode : Nat
  rotation : Nat
deriving DecidableEq

/-- What the X server reports for one monitor of `XRRGetMonitors`: the text of
its name atom, its `primary` flag, the `connection` and `crtc` of the output
information of its first output (`RR_Disconnected` is 1, a `crtc` of 0 is no
CRTC), and the CRTC information that `XRRGetCrtcInfo` returns for that `crtc`. -/
structure monitor_t where
  name : String
  primary : Int
  connection : Nat
  crtc : Nat
  crtc_info : XRRCrtcInfo
deriving DecidableEq

/-- The facts that `displays` reads from an open X display: the monitors, the
mode table of the screen resources, and the global `DefaultDepth`,
`DisplayWidth` and `DisplayWidthMM` of screen 0, all three of C type `int`. -/
structure screen_t where
  monitors : List monitor_t
  modes : List XRRModeInfo
  default_depth : Int
  width : Int
  width_mm : Int
deriving DecidableEq

/-- The expression
`static_cast<uint32_t>((DisplayWidth(display, 0) * 25.4) / DisplayWidthMM(display, 0))`:
the `int` operands convert to `double` exactly, the product and the quotient are
rounded to `double`, and the cast drops the fractional part. The result is
`none` where the cast is undefined: a zero divisor, or a quotient that is not
above -1 and below 2^32. -/
def display_dpi (width width_mm : Int) : Option Nat :=
  if width_mm = 0 then none
  else
    let q := fl (fl ((width : ℚ) * fl (127 / 5)) / (width_mm : ℚ))
    if q ≤ -1 ∨ 4294967296 ≤ q then none else some (Int.toNat ⌊q⌋)

/-- The integer that `displays` casts to `orientation_t`:
`(rotation & 0x000f) | static_cast<uint32_t>(!!(rotation & 0x00f0))`. -/
def orientation_bits (rotation : Nat) : Nat :=
  (rotation &&& 15) ||| (if rotation &&& 240 = 0 then 0 else 1)

/-- The test `output_info->connection == RR_Disconnected || !output_info->crtc`
that makes the loop of `displays` pass over a monitor. -/
def disconnected (m : monitor_t) : Bool :=
  decide (m.connection = 1) || decide (m.crtc = 0)

/-- The record that `displays` pushes for one monitor, given its refresh rate
and the dpi. The enumerators of `orientation_t` are declared in
`probe/graphics.h`, which is not among the sources, so the cast from the integer
is the parameter `orientation_cast`. -/
def display_record (scr : screen_t) (orientation_cast : Nat → orientation_t) (m : monitor_t)
    (frequency : ℚ) (dpi : Nat) : display_t :=
  { name := m.name,
    geometry := { x := m.crtc_info.x, y := m.crtc_info.y,
                  width := m.crtc_info.width, height := m.crtc_info.height },
    frequency := frequency,
    bpp := toU32 scr.default_depth,
    dpi := dpi,
    orientation := orientation_cast (orientation_bits m.crtc_info.rotation),
    primary := decide (m.primary ≠ 0),
    scale := 1 }

/-- The loop of `displays` over `monitors[0 .. display_num)`. The result is
`none` when the refresh rate or the dpi of a record is undefined. -/
def displays_loop (scr : screen_t) (orientation_cast : Nat → orientation_t) :
    List monitor_t → Option (List display_t)
  | [] => some []
  | m :: rest =>
    if disconnected m then displays_loop scr orientation_cast rest
    else
      match calculate_frequency scr.modes m.crtc_info.mode,
        display_dpi scr.width scr.width_mm,
        displays_loop scr orientation_cast rest with
      | some frequency, some dpi, some _displays =>
        some (display_record scr orientation_cast m frequency dpi :: _displays)
      | _, _, _ => none

/-- The function `displays`. The first argument is `none` when `XOpenDisplay`
fails, and the result is then the empty sequence. -/
def displays (server : Option screen_t) (orientation_cast : Nat → orientation_t) :
    Option (List display_t) :=
  match server with
  | none => some []
  | some scr => displays_loop scr orientation_cast scr.monitors

/-- The integer `n` is a nearest integer to `q`. -/
def is_nearest (n : Nat) (q : ℚ) : Prop := |(n : ℚ) - q| ≤ 1 / 2

instance (n : Nat) (q : ℚ) : Decidable (is_nearest n q) := by
  unfold is_nearest; exact inferInstance

/-- The dpi as the specification words it: every record carries a nearest
integer to the exact quotient `pixel_width * 25.4 / mm_width`. -/
def dpi_round_spec (scr : screen_t) (records : List display_t) : Prop :=
  ∀ d ∈ records, is_nearest d.dpi ((scr.width : ℚ) * (127 / 5) / (scr.width_mm : ℚ))

end graphics

/-! ## Version parsing -/

/-- The record `version_t` of `probe/types.h`; the numeric fields are
`uint32_t`. -/
structure version_t where
  major : Nat := 0
  minor : Nat := 0
  patch : Nat := 0
  build : Nat := 0
  codename : String := ""
deriving DecidableEq

/-- The constructs of the ECMAScript grammar that `version_regex` is written
with: a character class, concatenation, the greedy quantifiers `*` and `?`,
and a numbered capture group. Non-capturing groups are plain nesting and `{1}`
leaves its operand unchanged. -/
inductive regex_t where
  | char_class (p : Char → Bool)
  | seq (a b : regex_t)
  | star (a : regex_t)
  | opt (a : regex_t)
  | group (i : Nat) (a : regex_t)

/-- The quantifier `+`: one occurrence, then greedily more. -/
def regex_t.plus (a : regex_t) : regex_t := regex_t.seq a (regex_t.star a)

/-- The class `\d`. -/
def is_digit (c : Char) : Bool := c.isDigit

/-- The class `\w`. -/
def is_word (c : Char) : Bool := c.isAlphanum || c == '_'

/-- The escaped character `\.`. -/
def is_dot (c : Char) : Bool := c == '.'

/-- The escaped character `\-`. -/
def is_dash (c : Char) : Bool := c == '-'

/-- The class `[\.-]`. -/
def is_dot_or_dash (c : Char) : Bool := c == '.' || c == '-'

/-- The class `[^\.]`. -/
def not_dot (c : Char) : Bool := !(c == '.')

/-- The class `[^\d\.]`. -/
def not_digit_dot (c : Char) : Bool := !(c.isDigit || c == '.')

/-- The constant `version_regex` of `probe/types.h`,
`(?:[^\.]*[^\d\.]{1})*(\d+)\.(\d+)(?:\.(\d+))?(?:[\.-]{1}(\d+))?(?:\-{1}(\w+))?(?:[^\d\.]{1}[^\.]*)*`,
piece by piece in the order of the pattern. -/
def version_regex : regex_t :=
  regex_t.seq
    (regex_t.star (regex_t.seq (regex_t.star (regex_t.char_class not_dot))
      (regex_t.char_class not_digit_dot)))
  (regex_t.seq (regex_t.group 1 (regex_t.plus (regex_t.char_class is_digit)))
  (regex_t.seq (regex_t.char_class is_dot)
  (regex_t.seq (regex_t.group 2 (regex_t.plus (regex_t.char_class is_digit)))
  (regex_t.seq
    (regex_t.opt (regex_t.seq (regex_t.char_class is_dot)
      (regex_t.group 3 (regex_t.plus (regex_t.char_class is_digit)))))
  (regex_t.seq
    (regex_t.opt (regex_t.seq (regex_t.char_class is_dot_or_dash)
      (regex_t.group 4 (regex_t.plus (regex_t.char_class is_digit)))))
  (regex_t.seq
    (regex_t.opt (regex_t.seq (regex_t.char_class is_dash)
      (regex_t.group 5 (regex_t.plus (regex_t.char_class is_word)))))
    (regex_t.star (regex_t.seq (regex_t.char_class not_digit_dot)
      (regex_t.star (regex_t.char_class not_dot))))))))))

/-- A position of the matcher: the input not yet consumed and the text captured
so far by each numbered group (`none` for a group that has not matched). -/
structure match_state where
  rest : List Char
  caps : List (Option (List Char))
deriving DecidableEq

/-- Greedy repetition: every way of running `f` once more (an iteration that
consumes nothing is rejected, as ECMAScript prescribes), each continued by
further repetitions, is preferred to stopping here. Each iteration consumes a
character, so a count equal to the length of the remaining input never runs
out. -/
def repeat_greedy (f : match_state → List match_state) : Nat → match_state → List match_state
  | 0, s => [s]
  | n + 1, s =>
    ((f s).filter (fun s' => decide (s'.rest.length < s.rest.length))).flatMap
      (repeat_greedy f n) ++ [s]

/-- Backtracking semantics of a pattern: all the positions it can reach from
`s`, in the order in which a backtracking matcher tries them. -/
def regex_t.run : regex_t → match_state → List match_state
  | regex_t.char_class p, s =>
    match s.rest with
    | c :: cs => if p c then [{ s with rest := cs }] else []
    | [] => []
  | regex_t.seq a b, s => (regex_t.run a s).flatMap (regex_t.run b)
  | regex_t.star a, s => repeat_greedy (regex_t.run a) s.rest.length s
  | regex_t.opt a, s =>
    (regex_t.run a s).filter (fun s' => decide (s'.rest.length < s.rest.length)) ++ [s]
  | regex_t.group i a, s =>
    (regex_t.run a s).map (fun s' =>
      { s' with caps := s'.caps.set i (some (s.rest.take (s.rest.length - s'.rest.length))) })

/-- Modelled from the spec: `std::regex_match` of the standard library, a match
of the whole input: the captures of the first way, in backtracking order, of
consuming all of it; `none` when there is none. -/
def regex_match (r : regex_t) (input : List Char) : Option (List (Option (List Char))) :=
  ((r.run { rest := input, caps := List.replicate 6 none }).find?
    (fun s => s.rest.isEmpty)).map (fun s => s.caps)

/-- Value of a string of decimal digits. -/
def stoul (digits : List Char) : Nat :=
  digits.foldl (fun n c => 10 * n + (c.toNat - 48)) 0

/-- Modelled from the spec: the numeric field for a capture group; an unmatched
group gives 0 (section 4.2), a matched one its value as a `uint32_t`. -/
def capture_number : Option (List Char) → Nat
  | none => 0
  | some digits => stoul digits % 4294967296

/-- Modelled from the spec: the codename for a capture group; an unmatched
group gives the empty string (section 4.2). -/
def capture_text : Option (List Char) → String
  | none => ""
  | some cs => String.mk cs

/-- Modelled from the spec: `to_version` is declared in `probe/types.h` and
defined in a file that is not among the sources. Section 4.2: the pattern is
applied to the whole string; groups 1 to 5 are major, minor, patch, build and
codename; when the pattern does not match, the result is the zero-valued
`version_t`. -/
def to_version (str : String) : version_t :=
  match regex_match version_regex str.data with
  | none => {}
  | some caps =>
    { major := capture_number (caps.getD 1 none),
      minor := capture_number (caps.getD 2 none),
      patch := capture_number (caps.getD 3 none),
      build := capture_number (caps.getD 4 none),
      codename := capture_text (caps.getD 5 none) }

/-! ## Operating system name (Windows) -/

namespace system

/-- The member `std::string::find` with a C string and the default start 0: the
index of the first occurrence of `pat` in `s`, `none` for `npos`. -/
def string_find : List Char → List Char → Option Nat
  | [], pat => if pat.isEmpty then some 0 else none
  | c :: cs, pat =>
    if pat.isPrefixOf (c :: cs) then some 0 else (string_find cs pat).map (fun pos => pos + 1)

/-- The member `std::string::replace(pos, count, str)`: the characters
`[pos, pos + count)`, cut off at the end of the string, give way to `str`. The
result is `none` when `pos` is beyond the end, where the member throws
`std::out_of_range`. -/
def string_replace (s : List Char) (pos count : Nat) (str : List Char) : Option (List Char) :=
  if pos > s.length then none else some (s.take pos ++ str ++ s.drop (pos + count))

/-- The function `os_name`. Its arguments are the value of `os_version()` and
what the registry reads of `ProductName` and `InstallationType` return (`none`
for an absent value). -/
def os_name (os_ver : version_t) (ProductName InstallationType : Option String) :
    Option String :=
  let name := ProductName.getD "Windows"
  if os_ver.patch ≥ 22000 ∧ InstallationType.getD "" = "Client" then
    match string_find name.data "Windows 10".data with
    | some pos =>
      (string_replace name.data pos (pos + 10) "Windows 11".data).map String.mk
    | none => some name
  else some name

/-- The name as the specification words it: the first occurrence of
`Windows 10`, at index `pos`, becomes `Windows 11` and the characters before and
after it stay. -/
def replaced_name (name : String) (pos : Nat) : String :=
  String.mk (name.data.take pos ++ "Windows 11".data ++ name.data.drop (pos + 10))

end system

/-! # Properties -/

namespace graphics

/-! ## Fixed-width helpers -/

theorem wrap32_of_inInt32 {z : Int} (h : inInt32 z) : wrap32 z = z := by
  unfold inInt32 at h
  unfold wrap32
  omega

theorem wrap32_inInt32 (z : Int) : inInt32 (wrap32 z) := by
  unfold inInt32 wrap32
  omega

theorem toU32_of_nonneg_lt {z : Int} (h0 : 0 ≤ z) (h1 : z < 4294967296) :
    (toU32 z : Int) = z := by
  unfold toU32
  rw [Int.emod_eq_of_lt h0 h1]
  exact Int.toNat_of_nonneg h0

/-! ## Minimum and maximum of a list -/

theorem foldl_min_le (as : List Int) (a : Int) : as.foldl min a ≤ a := by
  induction as generalizing a with
  | nil => simp
  | cons b bs ih =>
    simp only [List.foldl_cons]
    exact le_trans (ih _) (min_le_left _ _)

theorem foldl_min_le_of_mem (as : List Int) (a x : Int) (hx : x ∈ as) :
    as.foldl min a ≤ x := by
  induction as generalizing a with
  | nil => simp at hx
  | cons b bs ih =>
    simp only [List.foldl_cons]
    rcases List.mem_cons.1 hx with rfl | hmem
    · exact le_trans (foldl_min_le _ _) (min_le_right _ _)
    · exact ih _ hmem

theorem foldl_min_mem (as : List Int) (a : Int) :
    as.foldl min a = a ∨ as.foldl min a ∈ as := by
  induction as generalizing a with
  | nil => simp
  | cons b bs ih =>
    simp only [List.foldl_cons, List.mem_cons]
    rcases ih (min a b) with h | h
    · rcases min_choice a b with h2 | h2
      · left; rw [h, h2]
      · right; left; rw [h, h2]
    · right; right; exact h

theorem le_foldl_max (as : List Int) (a : Int) : a ≤ as.foldl max a := by
  induction as generalizing a with
  | nil => simp
  | cons b bs ih =>
    simp only [List.foldl_cons]
    exact le_trans (le_max_left _ _) (ih _)

theorem le_foldl_max_of_mem (as : List Int) (a x : Int) (hx : x ∈ as) :
    x ≤ as.foldl max a := by
  induction as generalizing a with
  | nil => simp at hx
  | cons b bs ih =>
    simp only [List.foldl_cons]
    rcases List.mem_cons.1 hx with rfl | hmem
    · exact le_trans (le_max_right _ _) (le_foldl_max _ _)
    · exact ih _ hmem

theorem foldl_max_mem (as : List Int) (a : Int) :
    as.foldl max a = a ∨ as.foldl max a ∈ as := by
  induction as generalizing a with
  | nil => simp
  | cons b bs ih =>
    simp only [List.foldl_cons, List.mem_cons]
    rcases ih (max a b) with h | h
    · rcases max_choice a b with h2 | h2
      · left; rw [h, h2]
      · right; left; rw [h, h2]
    · right; right; exact h

/-- The number `list_min as` is a member of a non-empty `as` and a lower bound of it. -/
theorem list_min_spec (as : List Int) (h : as ≠ []) :
    list_min as ∈ as ∧ ∀ x ∈ as, list_min as ≤ x := by
  cases as with
  | nil => exact absurd rfl h
  | cons a rest =>
    refine ⟨?_, ?_⟩
    · rcases foldl_min_mem rest a with h1 | h1
      · simp [list_min, h1]
      · simp [list_min, h1]
    · intro x hx
      rcases List.mem_cons.1 hx with rfl | hmem
      · exact foldl_min_le _ _
      · exact foldl_min_le_of_mem _ _ _ hmem

/-- The number `list_max as` is a member of a non-empty `as` and an upper bound of it. -/
theorem list_max_spec (as : List Int) (h : as ≠ []) :
    list_max as ∈ as ∧ ∀ x ∈ as, x ≤ list_max as := by
  cases as with
  | nil => exact absurd rfl h
  | cons a rest =>
    refine ⟨?_, ?_⟩
    · rcases foldl_max_mem rest a with h1 | h1
      · simp [list_max, h1]
      · simp [list_max, h1]
    · intro x hx
      rcases List.mem_cons.1 hx with rfl | hmem
      · exact le_foldl_max _ _
      · exact le_foldl_max_of_mem _ _ _ hmem

/-- The loop of `virtual_screen_geometry` folds `min` and `max` over the fields. -/
theorem foldl_virtual_screen_step (ds : List display_t) (acc : bounds_t) :
    ds.foldl virtual_screen_step acc =
      { l := (ds.map (fun d => d.geometry.x)).foldl min acc.l,
        t := (ds.map (fun d => d.geometry.y)).foldl min acc.t,
        r := (ds.map (fun d =>
          wrap32 (d.geometry.x + (d.geometry.width : Int) - 1))).foldl max acc.r,
        b := (ds.map (fun d =>
          wrap32 (d.geometry.y + (d.geometry.height : Int) - 1))).foldl max acc.b } := by
  induction ds generalizing acc with
  | nil => rfl
  | cons d rest ih =>
    simp only [List.foldl_cons, List.map_cons, ih]
    have e1 : (virtual_screen_step acc d).l = min acc.l d.geometry.x := by
      simp only [virtual_screen_step]
      split <;> omega
    have e2 : (virtual_screen_step acc d).t = min acc.t d.geometry.y := by
      simp only [virtual_screen_step]
      split <;> omega
    have e3 : (virtual_screen_step acc d).r =
        max acc.r (wrap32 (d.geometry.x + (d.geometry.width : Int) - 1)) := by
      simp only [virtual_screen_step]
      split <;> omega
    have e4 : (virtual_screen_step acc d).b =
        max acc.b (wrap32 (d.geometry.y + (d.geometry.height : Int) - 1)) := by
      simp only [virtual_screen_step]
      split <;> omega
    rw [e1, e2, e3, e4]

theorem toU32_wrap32_diff (r l : Int) (h0 : 0 ≤ r - l + 1) (h1 : r - l + 1 < 4294967296) :
    (toU32 (wrap32 (wrap32 (r - l) + 1)) : Int) = r - l + 1 := by
  unfold toU32 wrap32
  omega

/-! ## Virtual screen -/

/-- On displays whose edges fit, the accumulators of `virtual_screen_geometry`
end as the least left and top and the greatest right and bottom edge. -/
theorem virtual_screen_bounds (ds : List display_t) (hne : ds ≠ [])
    (hfit : ∀ d ∈ ds, edges_fit d) :
    ds.foldl virtual_screen_step
        { l := 2147483647, t := 2147483647, r := -2147483648, b := -2147483648 } =
      { l := list_min (ds.map (fun d => d.geometry.x)),
        t := list_min (ds.map (fun d => d.geometry.y)),
        r := list_max (ds.map (fun d => d.geometry.x + (d.geometry.width : Int) - 1)),
        b := list_max (ds.map (fun d => d.geometry.y + (d.geometry.height : Int) - 1)) } := by
  have hr : ds.map (fun d => wrap32 (d.geometry.x + (d.geometry.width : Int) - 1)) =
      ds.map (fun d => d.geometry.x + (d.geometry.width : Int) - 1) :=
    List.map_congr_left (fun d hd => wrap32_of_inInt32 (hfit d hd).2.1)
  have hb : ds.map (fun d => wrap32 (d.geometry.y + (d.geometry.height : Int) - 1)) =
      ds.map (fun d => d.geometry.y + (d.geometry.height : Int) - 1) :=
    List.map_congr_left (fun d hd => wrap32_of_inInt32 (hfit d hd).2.2)
  rw [foldl_virtual_screen_step, hr, hb]
  cases ds with
  | nil => exact absurd rfl hne
  | cons d rest =>
    obtain ⟨⟨hx, hy, -, -⟩, hR, hB⟩ := hfit d (List.mem_cons_self _ _)
    unfold inInt32 at hx hy hR hB
    simp only [List.map_cons, List.foldl_cons, list_min, list_max]
    rw [min_eq_right hx.2, min_eq_right hy.2, max_eq_right hR.1, max_eq_right hB.1]

/-- C2 (as amended): for every non-empty list of displays whose edge coordinates
fit in signed 32 bits and whose bounding extents `max right - min x + 1` and
`max bottom - min y + 1` are below 2^32, `virtual_screen_geometry` returns the
bounding box; and displays `{0,0,1920,1080}`, `{1920,0,1280,1024}` give
`{0,0,3200,1080}`. -/
theorem virtual_screen_geometry_bounding_box (ds : List display_t) (hne : ds ≠ [])
    (hfit : ∀ d ∈ ds, edges_fit d)
    (hw : list_max (ds.map (fun d => d.geometry.x + (d.geometry.width : Int) - 1)) -
      list_min (ds.map (fun d => d.geometry.x)) + 1 < 4294967296)
    (hh : list_max (ds.map (fun d => d.geometry.y + (d.geometry.height : Int) - 1)) -
      list_min (ds.map (fun d => d.geometry.y)) + 1 < 4294967296) :
    bounding_box_spec ds (virtual_screen_geometry ds) ∧
    virtual_screen_geometry
        [{ geometry := ⟨0, 0, 1920, 1080⟩ }, { geometry := ⟨1920, 0, 1280, 1024⟩ }] =
      ⟨0, 0, 3200, 1080⟩ := by
  refine ⟨?_, by decide⟩
  have hxne : ds.map (fun d => d.geometry.x) ≠ [] := by simpa using hne
  have hyne : ds.map (fun d => d.geometry.y) ≠ [] := by simpa using hne
  have hrne : ds.map (fun d => d.geometry.x + (d.geometry.width : Int) - 1) ≠ [] := by
    simpa using hne
  have hbne : ds.map (fun d => d.geometry.y + (d.geometry.height : Int) - 1) ≠ [] := by
    simpa using hne
  obtain ⟨d, hd, hdx⟩ := List.mem_map.1 (list_min_spec _ hxne).1
  obtain ⟨e, he, hey⟩ := List.mem_map.1 (list_min_spec _ hyne).1
  have h1 := (list_max_spec _ hrne).2 _ (List.mem_map_of_mem
    (fun d => d.geometry.x + (d.geometry.width : Int) - 1) hd)
  have h2 := (list_max_spec _ hbne).2 _ (List.mem_map_of_mem
    (fun d => d.geometry.y + (d.geometry.height : Int) - 1) he)
  simp only [] at h1 h2 hdx hey
  unfold bounding_box_spec virtual_screen_geometry
  rw [virtual_screen_bounds ds hne hfit]
  refine ⟨rfl, rfl, ?_, ?_⟩
  · exact toU32_wrap32_diff _ _ (by dsimp only; omega) hw
  · exact toU32_wrap32_diff _ _ (by dsimp only; omega) hh

/-- Witness for `virtual_screen_geometry_bounding_box`: the two displays of the
scenario. -/
theorem virtual_screen_geometry_bounding_box_witness :
    bounding_box_spec
        [{ geometry := ⟨0, 0, 1920, 1080⟩ }, { geometry := ⟨1920, 0, 1280, 1024⟩ }]
        (virtual_screen_geometry
          [{ geometry := ⟨0, 0, 1920, 1080⟩ }, { geometry := ⟨1920, 0, 1280, 1024⟩ }]) :=
  (virtual_screen_geometry_bounding_box
    [{ geometry := ⟨0, 0, 1920, 1080⟩ }, { geometry := ⟨1920, 0, 1280, 1024⟩ }]
    (List.cons_ne_nil _ _) (by decide) (by decide) (by decide)).1

/-- C2 (counterexample): two 1x1 displays at `x = -2^31` and `x = 2^31 - 1` have
edges that fit in signed 32 bits, yet the returned width is 0 while the bounding
box is 2^32 wide. -/
theorem virtual_screen_geometry_not_always_bounding_box :
    (∀ d ∈ ([{ geometry := ⟨-2147483648, 0, 1, 1⟩ }, { geometry := ⟨2147483647, 0, 1, 1⟩ }] :
      List display_t), edges_fit d) ∧
    virtual_screen_geometry
        [{ geometry := ⟨-2147483648, 0, 1, 1⟩ }, { geometry := ⟨2147483647, 0, 1, 1⟩ }] =
      ⟨-2147483648, 0, 0, 1⟩ ∧
    ¬ bounding_box_spec
        [{ geometry := ⟨-2147483648, 0, 1, 1⟩ }, { geometry := ⟨2147483647, 0, 1, 1⟩ }]
        (virtual_screen_geometry
          [{ geometry := ⟨-2147483648, 0, 1, 1⟩ }, { geometry := ⟨2147483647, 0, 1, 1⟩ }]) := by
  decide

/-! ## Window enumeration -/

/-- The loop of `windows` prepends the records of the children it does not skip. -/
theorem foldl_windows (visible : Bool) (cs : List child_t) (acc : List window_t) :
    cs.foldl (fun ret c => if skipped visible c then ret else window_record c :: ret) acc =
      ((cs.filter (fun c => !skipped visible c)).map window_record).reverse ++ acc := by
  induction cs generalizing acc with
  | nil => rfl
  | cons c rest ih =>
    simp only [List.foldl_cons, ih, List.filter_cons]
    cases hs : skipped visible c <;> simp

theorem windows_eq (visible : Bool) (cs : List child_t) :
    windows (some cs) visible =
      ((cs.filter (fun c => !skipped visible c)).map window_record).reverse := by
  simp [windows, foldl_windows]

theorem windows_false_eq (cs : List child_t) :
    windows (some cs) false = (cs.map window_record).reverse := by
  rw [windows_eq]
  simp [skipped]

/-- C1: `windows(visible = false)` returns one record per child in the reverse
of the native stacking list: the result has the length `n` of the list and its
`i`-th record has the handle of child `n - 1 - i`; natively listed `W1, W2, W3`
come back as `W3, W2, W1`. -/
theorem windows_reverse_of_stacking (cs : List child_t) :
    (windows (some cs) false).length = cs.length ∧
    (∀ (i : Nat) (h : i < cs.length) (h2 : i < (windows (some cs) false).length),
      ((windows (some cs) false).get ⟨i, h2⟩).handle =
        (cs.get ⟨cs.length - 1 - i, by omega⟩).window) ∧
    (∀ (a1 a2 a3 : XWindowAttributes) (b1 b2 b3 : Option String) (W1 W2 W3 : Nat),
      (windows (some [⟨W1, a1, b1⟩, ⟨W2, a2, b2⟩, ⟨W3, a3, b3⟩]) false).map
        window_t.handle = [W3, W2, W1]) := by
  refine ⟨?_, ?_, ?_⟩
  · simp [windows_false_eq]
  · intro i h h2
    simp only [windows_false_eq, List.get_eq_getElem, List.getElem_reverse, List.getElem_map,
      List.length_map, window_record]
  · intro a1 a2 a3 b1 b2 b3 W1 W2 W3
    simp [windows_false_eq, window_record]

/-- Witness for `windows_reverse_of_stacking`: three children with handles
11, 22, 33; the record at index 0 has handle 33. -/
theorem windows_reverse_of_stacking_witness :
    ((windows (some [⟨11, {}, none⟩, ⟨22, {}, none⟩, ⟨33, {}, none⟩]) false).get
      ⟨0, by decide⟩).handle = 33 :=
  (windows_reverse_of_stacking [⟨11, {}, none⟩, ⟨22, {}, none⟩, ⟨33, {}, none⟩]).2.1 0
    (by decide) (by decide)

/-- C7 (as amended): for every native child list whose windows have non-negative
width and height with a product representable as a 32-bit `int`,
`windows(visible = true)` is `windows(visible = false)` without exactly the
records whose `visible` field is false or whose area is below 4. -/
theorem windows_visible_filter (cs : List child_t) (hfit : ∀ c ∈ cs, area_fits c) :
    visible_filter_spec cs := by
  unfold visible_filter_spec
  rw [windows_false_eq, windows_eq, List.filter_reverse, List.filter_map]
  congr 2
  apply List.filter_congr
  intro c hc
  obtain ⟨hw0, hw1, hh0, hh1, hp⟩ := hfit c hc
  have e1 : (toU32 c.attrs.width : Int) = c.attrs.width :=
    toU32_of_nonneg_lt hw0 (by omega)
  have e2 : (toU32 c.attrs.height : Int) = c.attrs.height :=
    toU32_of_nonneg_lt hh0 (by omega)
  have hp0 : 0 ≤ c.attrs.width * c.attrs.height := Int.mul_nonneg hw0 hh0
  have e3 : wrap32 (c.attrs.width * c.attrs.height) = c.attrs.width * c.attrs.height :=
    wrap32_of_inInt32 ⟨by omega, hp⟩
  have e4 : (toU32 c.attrs.width * toU32 c.attrs.height < 4) ↔
      (c.attrs.width * c.attrs.height < 4) := by
    have e5 : ((toU32 c.attrs.width * toU32 c.attrs.height : Nat) : Int) =
        c.attrs.width * c.attrs.height := by
      rw [Nat.cast_mul, e1, e2]
    rw [← e5]
    exact ⟨fun h4 => by exact_mod_cast h4, fun h4 => by exact_mod_cast h4⟩
  simp only [skipped, Bool.true_and, Function.comp, window_record, e3]
  by_cases hm : c.attrs.map_state < 2 <;> by_cases ha : c.attrs.width * c.attrs.height < 4
  all_goals simp [hm, ha, e4]
  omega

/-- Witness for `windows_visible_filter`: an unmapped window, a viewable 1x1
window and a viewable 800x600 window. -/
theorem windows_visible_filter_witness :
    visible_filter_spec
      [⟨1, ⟨0, 0, 640, 480, 0⟩, none⟩, ⟨2, ⟨0, 0, 1, 1, 2⟩, none⟩,
        ⟨3, ⟨10, 20, 800, 600, 2⟩, some "term"⟩] :=
  windows_visible_filter
    [⟨1, ⟨0, 0, 640, 480, 0⟩, none⟩, ⟨2, ⟨0, 0, 1, 1, 2⟩, none⟩,
      ⟨3, ⟨10, 20, 800, 600, 2⟩, some "term"⟩] (by decide)

/-- C7 (counterexample): a viewable window of 65536 by 65536 pixels has an area
of 2^32, not below 4, yet `windows(visible = true)` drops it, because the product
computed as an `int` is 0. -/
theorem windows_visible_filter_fails :
    windows (some [⟨1, ⟨0, 0, 65536, 65536, 2⟩, none⟩]) true = [] ∧
    (windows (some [⟨1, ⟨0, 0, 65536, 65536, 2⟩, none⟩]) false).filter
      (fun w => !(!w.visible || decide (w.geometry.width * w.geometry.height < 4))) =
      [{ name := "", geometry := ⟨0, 0, 65536, 65536⟩, handle := 1, visible := true }] ∧
    ¬ visible_filter_spec [⟨1, ⟨0, 0, 65536, 65536, 2⟩, none⟩] := by
  decide

/-! ## Geometry algebra -/

/-- C3 (counterexample): the 1x1 rectangle at the origin intersected with itself
is the default geometry, so the pixel (0,0), which lies in both operands, does
not lie in the result of `intersected`. -/
theorem intersected_loses_single_pixel :
    geometry_t.intersected ⟨0, 0, 1, 1⟩ ⟨0, 0, 1, 1⟩ = ⟨0, 0, 0, 0⟩ ∧
    geometry_t.contains ⟨0, 0, 1, 1⟩ 0 0 false = true ∧
    geometry_t.contains (geometry_t.intersected ⟨0, 0, 1, 1⟩ ⟨0, 0, 1, 1⟩) 0 0 false
      = false := by
  decide

/-- The right edge of a rectangle that starts at `l` and has the width computed
for the span from `l` to `r` is `r` again. -/
theorem wrap32_span (l r : Int) (hr : -2147483648 ≤ r ∧ r ≤ 2147483647) :
    wrap32 (l + (toU32 (wrap32 (wrap32 (r - l) + 1)) : Int) - 1) = r := by
  unfold toU32 wrap32
  omega

/-- C3 (as amended): for all geometries `a` and `b` with fields in the ranges of
their types and every point, the point is contained (`proper = false`) in
`a.intersected(b)` if and only if it is contained in `a` and in `b` and the
overlap is more than one pixel wide and more than one pixel high (greatest left
below least right, greatest top below least bottom); an overlap one pixel wide
or high gives the empty geometry, which contains no point. -/
theorem contains_intersected (a b : geometry_t) (ha : a.WF) (hb : b.WF) (px py : Int) :
    (a.intersected b).contains px py false = true ↔
      (a.contains px py false = true ∧ b.contains px py false = true ∧
        max a.left b.left < min a.right b.right ∧ max a.top b.top < min a.bottom b.bottom) := by
  obtain ⟨hax, hay, -, -⟩ := ha
  obtain ⟨hbx, hby, -, -⟩ := hb
  have har := wrap32_inInt32 (a.x + (a.width : Int) - 1)
  have hbr := wrap32_inInt32 (b.x + (b.width : Int) - 1)
  have hab := wrap32_inInt32 (a.y + (a.height : Int) - 1)
  have hbb := wrap32_inInt32 (b.y + (b.height : Int) - 1)
  unfold geometry_t.intersected
  simp only []
  split
  · rename_i hg
    simp only [geometry_t.contains, geometry_t.left, geometry_t.right, geometry_t.top,
      geometry_t.bottom, Bool.false_eq_true, if_false, Bool.and_eq_true, decide_eq_true_eq]
      at hg ⊢
    have e : wrap32 ((0 : Int) + ((0 : Nat) : Int) - 1) = -1 := by decide
    rw [e]
    omega
  · rename_i hg
    simp only [geometry_t.contains, geometry_t.left, geometry_t.right, geometry_t.top,
      geometry_t.bottom, Bool.false_eq_true, if_false, Bool.and_eq_true, decide_eq_true_eq]
      at hg ⊢
    generalize wrap32 (a.x + (a.width : Int) - 1) = ar at *
    generalize wrap32 (b.x + (b.width : Int) - 1) = br at *
    generalize wrap32 (a.y + (a.height : Int) - 1) = ab at *
    generalize wrap32 (b.y + (b.height : Int) - 1) = bb at *
    unfold inInt32 at *
    have e1 := wrap32_span (max a.x b.x) (min ar br) (by omega)
    have e2 := wrap32_span (max a.y b.y) (min ab bb) (by omega)
    rw [e1, e2]
    omega

/-- Witness for `contains_intersected`: the point (7,7) in the overlap of the
10x10 rectangles at (0,0) and at (5,5). -/
theorem contains_intersected_witness :
    geometry_t.contains (geometry_t.intersected ⟨0, 0, 10, 10⟩ ⟨5, 5, 10, 10⟩) 7 7 false
      = true :=
  (contains_intersected ⟨0, 0, 10, 10⟩ ⟨5, 5, 10, 10⟩ (by decide) (by decide) 7 7).2
    ⟨by decide, by decide, by decide, by decide⟩

/-- C4: two well-formed geometries that share no pixel (no `int32_t` point is
contained, with `proper = false`, in both) intersect in the default-constructed
geometry `{0, 0, 0, 0}`. -/
theorem intersected_eq_default_of_disjoint (a b : geometry_t)
    (ha : a.WF) (hb : b.WF)
    (h : ∀ px py : Int, inInt32 px → inInt32 py →
      ¬ (a.contains px py false = true ∧ b.contains px py false = true)) :
    a.intersected b = { x := 0, y := 0, width := 0, height := 0 } := by
  obtain ⟨hax, hay, -, -⟩ := ha
  obtain ⟨hbx, hby, -, -⟩ := hb
  have hl : inInt32 (max a.left b.left) := by
    unfold inInt32 geometry_t.left at *
    omega
  have ht : inInt32 (max a.top b.top) := by
    unfold inInt32 geometry_t.top at *
    omega
  have key := h _ _ hl ht
  unfold geometry_t.intersected
  simp only []
  split
  · rfl
  · rename_i hne
    exfalso
    apply key
    simp only [geometry_t.contains, Bool.false_eq_true, if_false, Bool.and_eq_true,
      decide_eq_true_eq]
    omega

/-- Witness for `intersected_eq_default_of_disjoint`: the 2x2 rectangles at
(0,0) and at (5,5). -/
theorem intersected_eq_default_of_disjoint_witness :
    geometry_t.intersected ⟨0, 0, 2, 2⟩ ⟨5, 5, 2, 2⟩
      = { x := 0, y := 0, width := 0, height := 0 } :=
  intersected_eq_default_of_disjoint ⟨0, 0, 2, 2⟩ ⟨5, 5, 2, 2⟩ (by decide) (by decide)
    (by
      intro px py _ _ hc
      simp only [geometry_t.contains, geometry_t.left, geometry_t.right, geometry_t.top,
        geometry_t.bottom, wrap32, Bool.false_eq_true, if_false, Bool.and_eq_true,
        decide_eq_true_eq] at hc
      omega)

/-- C5: intersection is symmetric under the field-wise `operator==`. -/
theorem intersected_symmetric (a b : geometry_t) :
    geometry_t.eq (a.intersected b) (b.intersected a) = true := by
  have h : a.intersected b = b.intersected a := by
    unfold geometry_t.intersected
    simp only [max_comm a.left b.left, max_comm a.top b.top, min_comm a.right b.right,
      min_comm a.bottom b.bottom]
  rw [h]
  simp [geometry_t.eq]

/-- C8: `contains(o, proper = false)` holds exactly when the four edges of `o`
lie weakly inside those of `r`; `contains(o, proper = true)` is false whenever
`o` has the same left, right, top or bottom coordinate as `r`; and the two
scenarios of the specification evaluate as stated. -/
theorem contains_geometry_boundary_rule (r o : geometry_t) :
    (r.contains_geometry o false = true ↔
      (r.left ≤ o.left ∧ r.right ≥ o.right ∧ r.top ≤ o.top ∧ r.bottom ≥ o.bottom)) ∧
    ((r.left = o.left ∨ r.right = o.right ∨ r.top = o.top ∨ r.bottom = o.bottom) →
      r.contains_geometry o true = false) ∧
    geometry_t.contains_geometry ⟨0, 0, 10, 10⟩ ⟨2, 2, 4, 4⟩ false = true ∧
    geometry_t.contains_geometry ⟨0, 0, 10, 10⟩ ⟨0, 0, 4, 4⟩ true = false := by
  refine ⟨?_, ?_, by decide, by decide⟩
  · simp only [geometry_t.contains_geometry, Bool.false_eq_true, if_false,
      Bool.and_eq_true, decide_eq_true_eq]
    tauto
  · intro h
    rw [← Bool.not_eq_true]
    simp only [geometry_t.contains_geometry, if_true, Bool.and_eq_true, decide_eq_true_eq]
    omega

/-- Witness for `contains_geometry_boundary_rule`: the inner rectangle
`{0,0,4,4}` shares its left edge with `{0,0,10,10}`. -/
theorem contains_geometry_boundary_rule_witness :
    geometry_t.contains_geometry ⟨0, 0, 10, 10⟩ ⟨0, 0, 4, 4⟩ true = false :=
  (contains_geometry_boundary_rule ⟨0, 0, 10, 10⟩ ⟨0, 0, 4, 4⟩).2.1 (Or.inl rfl)

/-- C9: a point contained with `proper = true` is contained with
`proper = false`. -/
theorem contains_proper_imp_contains (r : geometry_t) (x y : Int)
    (h : r.contains x y true = true) : r.contains x y false = true := by
  simp only [geometry_t.contains, if_true, Bool.false_eq_true, if_false, Bool.and_eq_true,
    decide_eq_true_eq] at h ⊢
  omega

/-- Witness for `contains_proper_imp_contains`: the point (5,5) in the
rectangle `{0,0,10,10}`. -/
theorem contains_proper_imp_contains_witness :
    geometry_t.contains ⟨0, 0, 10, 10⟩ 5 5 true = true ∧
    geometry_t.contains ⟨0, 0, 10, 10⟩ 5 5 false = true :=
  ⟨by decide, contains_proper_imp_contains ⟨0, 0, 10, 10⟩ 5 5 (by decide)⟩

end graphics

/-! ## Backtracking matcher -/

/-! ## Lists of matcher positions -/

theorem head?_flatMap_of_head {α β : Type} {l : List α} {f : α → List β} {a : α} {b : β}
    (hl : l.head? = some a) (hf : (f a).head? = some b) : (l.flatMap f).head? = some b := by
  cases l with
  | nil => simp at hl
  | cons x xs =>
    simp only [List.head?_cons, Option.some.injEq] at hl
    subst hl
    simp [List.flatMap_cons, List.head?_append, hf]

theorem head?_filter_of_head {α : Type} {l : List α} {p : α → Bool} {a : α}
    (hl : l.head? = some a) (hp : p a = true) : (l.filter p).head? = some a := by
  cases l with
  | nil => simp at hl
  | cons x xs =>
    simp only [List.head?_cons, Option.some.injEq] at hl
    subst hl
    simp [List.filter_cons, hp]

theorem head?_append_of_head {α : Type} {l l2 : List α} {a : α}
    (hl : l.head? = some a) : (l ++ l2).head? = some a := by
  simp [List.head?_append, hl]

theorem find?_of_head {α : Type} {l : List α} {p : α → Bool} {a : α}
    (hl : l.head? = some a) (hp : p a = true) : l.find? p = some a := by
  cases l with
  | nil => simp at hl
  | cons x xs =>
    simp only [List.head?_cons, Option.some.injEq] at hl
    subst hl
    simp [hp]

/-! ## The greedy quantifier -/

/-- A repetition count at least the length of the remaining input is as good as
any other such count. -/
theorem repeat_greedy_fuel (f : match_state → List match_state) :
    ∀ (n m : Nat) (s : match_state), s.rest.length ≤ n → s.rest.length ≤ m →
      repeat_greedy f n s = repeat_greedy f m s := by
  intro n
  induction n with
  | zero =>
    intro m s hn _
    cases m with
    | zero => rfl
    | succ m =>
      have h0 : s.rest.length = 0 := by omega
      simp [repeat_greedy, h0]
  | succ n ih =>
    intro m s _ hm
    cases m with
    | zero =>
      have h0 : s.rest.length = 0 := by omega
      simp [repeat_greedy, h0]
    | succ m =>
      simp only [repeat_greedy]
      congr 1
      apply List.flatMap_congr
      intro s' hs'
      have hlt : s'.rest.length < s.rest.length := by
        simpa using (List.mem_filter.1 hs').2
      exact ih m s' (by omega) (by omega)

/-- Unfolding of `*`: first every way of matching the operand once more and
repeating from there, then the way that stops. -/
theorem run_star (a : regex_t) (s : match_state) :
    (regex_t.star a).run s =
      ((a.run s).filter (fun s' => decide (s'.rest.length < s.rest.length))).flatMap
        (regex_t.star a).run ++ [s] := by
  have key : ∀ n, s.rest.length = n → repeat_greedy a.run n s =
      ((a.run s).filter (fun s' => decide (s'.rest.length < s.rest.length))).flatMap
        (fun x => repeat_greedy a.run x.rest.length x) ++ [s] := by
    intro n hn
    cases n with
    | zero => simp [repeat_greedy, hn]
    | succ n =>
      simp only [repeat_greedy]
      congr 1
      apply List.flatMap_congr
      intro s' hs'
      have hlt : s'.rest.length < s.rest.length := by
        simpa using (List.mem_filter.1 hs').2
      exact repeat_greedy_fuel _ _ _ _ (by omega) (le_refl _)
  simp only [regex_t.run]
  exact key _ rfl

theorem run_char_class_cons (p : Char → Bool) (x : Char) (ys : List Char)
    (c : List (Option (List Char))) :
    (regex_t.char_class p).run ⟨x :: ys, c⟩ = if p x then [⟨ys, c⟩] else [] := by
  simp [regex_t.run]

theorem run_class_star_stop (p : Char → Bool) (r : Char) (rs : List Char)
    (c : List (Option (List Char))) (hr : p r = false) :
    (regex_t.star (regex_t.char_class p)).run ⟨r :: rs, c⟩ = [⟨r :: rs, c⟩] := by
  rw [run_star, run_char_class_cons]
  simp [hr]

theorem run_class_star_nil (p : Char → Bool) (c : List (Option (List Char))) :
    (regex_t.star (regex_t.char_class p)).run ⟨[], c⟩ = [⟨[], c⟩] := by
  simp [regex_t.run, repeat_greedy]

theorem run_class_star_cons (p : Char → Bool) (x : Char) (ys : List Char)
    (c : List (Option (List Char))) (hx : p x = true) :
    (regex_t.star (regex_t.char_class p)).run ⟨x :: ys, c⟩ =
      (regex_t.star (regex_t.char_class p)).run ⟨ys, c⟩ ++ [⟨x :: ys, c⟩] := by
  rw [run_star, run_char_class_cons]
  simp [hx]

/-- A greedy run of a class prefers the longest run: the first position reached
is the one after all the characters of the class. -/
theorem run_class_star_head (p : Char → Bool) (xs : List Char) (r : Char) (rs : List Char)
    (c : List (Option (List Char))) (hxs : ∀ x ∈ xs, p x = true) (hr : p r = false) :
    ((regex_t.star (regex_t.char_class p)).run ⟨xs ++ r :: rs, c⟩).head? =
      some ⟨r :: rs, c⟩ := by
  induction xs with
  | nil => simp [run_class_star_stop p r rs c hr]
  | cons x xs ih =>
    rw [List.cons_append, run_class_star_cons p x _ c (hxs x (List.mem_cons_self _ _))]
    exact head?_append_of_head (ih (fun y hy => hxs y (List.mem_cons_of_mem _ hy)))

/-- When no character of the run, nor the one after it, is in the class `q`, a
class `q` cannot follow any way of matching `p*`. -/
theorem run_class_star_then_class_nil (p q : Char → Bool) (xs : List Char) (r : Char)
    (rs : List Char) (c : List (Option (List Char)))
    (hxs : ∀ x ∈ xs, p x = true ∧ q x = false) (hr : p r = false) (hq : q r = false) :
    ((regex_t.star (regex_t.char_class p)).run ⟨xs ++ r :: rs, c⟩).flatMap
      (regex_t.char_class q).run = [] := by
  induction xs with
  | nil => simp [run_class_star_stop p r rs c hr, run_char_class_cons, hq]
  | cons x xs ih =>
    obtain ⟨hpx, hqx⟩ := hxs x (List.mem_cons_self _ _)
    rw [List.cons_append, run_class_star_cons p x _ c hpx, List.flatMap_append,
      ih (fun y hy => hxs y (List.mem_cons_of_mem _ hy))]
    simp [run_char_class_cons, hqx]

/-- Backtracking of `p*` before a class `q`: the run is shortened until its last
character `a` is one of `q`. -/
theorem run_class_star_then_class_head (p q : Char → Bool) (as : List Char) (a : Char)
    (bs : List Char) (r : Char) (rs : List Char) (c : List (Option (List Char)))
    (has : ∀ x ∈ as, p x = true) (hpa : p a = true) (hqa : q a = true)
    (hbs : ∀ x ∈ bs, p x = true ∧ q x = false) (hr : p r = false) (hq : q r = false) :
    (((regex_t.star (regex_t.char_class p)).run ⟨as ++ a :: (bs ++ r :: rs), c⟩).flatMap
      (regex_t.char_class q).run).head? = some ⟨bs ++ r :: rs, c⟩ := by
  induction as with
  | nil =>
    rw [List.nil_append, run_class_star_cons p a _ c hpa, List.flatMap_append,
      run_class_star_then_class_nil p q bs r rs c hbs hr hq]
    simp [run_char_class_cons, hqa]
  | cons x as ih =>
    rw [List.cons_append, run_class_star_cons p x _ c (has x (List.mem_cons_self _ _)),
      List.flatMap_append]
    exact head?_append_of_head (ih (fun y hy => has y (List.mem_cons_of_mem _ hy)))

theorem run_seq_head (a b : regex_t) (s s1 s2 : match_state)
    (ha : (a.run s).head? = some s1) (hb : (b.run s1).head? = some s2) :
    ((regex_t.seq a b).run s).head? = some s2 := by
  simp only [regex_t.run]
  exact head?_flatMap_of_head ha hb

theorem run_opt_head (a : regex_t) (s s1 : match_state)
    (ha : (a.run s).head? = some s1) (hlt : s1.rest.length < s.rest.length) :
    ((regex_t.opt a).run s).head? = some s1 := by
  simp only [regex_t.run]
  exact head?_append_of_head (head?_filter_of_head ha (by simpa using hlt))

theorem run_opt_skip (a : regex_t) (s : match_state) (ha : a.run s = []) :
    (regex_t.opt a).run s = [s] := by
  simp [regex_t.run, ha]

theorem run_group_head (i : Nat) (a : regex_t) (s s1 : match_state)
    (ha : (a.run s).head? = some s1) :
    ((regex_t.group i a).run s).head? =
      some { s1 with
        caps := s1.caps.set i (some (s.rest.take (s.rest.length - s1.rest.length))) } := by
  simp [regex_t.run, ha]

/-- The operand `p+` takes a whole non-empty run of the class first. -/
theorem run_class_plus_head (p : Char → Bool) (x : Char) (xs : List Char) (r : Char)
    (rs : List Char) (c : List (Option (List Char))) (hx : p x = true)
    (hxs : ∀ y ∈ xs, p y = true) (hr : p r = false) :
    ((regex_t.plus (regex_t.char_class p)).run ⟨x :: (xs ++ r :: rs), c⟩).head? =
      some ⟨r :: rs, c⟩ := by
  unfold regex_t.plus
  apply run_seq_head _ _ _ ⟨xs ++ r :: rs, c⟩
  · simp [run_char_class_cons, hx]
  · exact run_class_star_head p xs r rs c hxs hr

/-- A capture group around `p+` records the whole run. -/
theorem run_group_plus_head (i : Nat) (p : Char → Bool) (x : Char) (xs : List Char)
    (r : Char) (rs : List Char) (c : List (Option (List Char))) (hx : p x = true)
    (hxs : ∀ y ∈ xs, p y = true) (hr : p r = false) :
    ((regex_t.group i (regex_t.plus (regex_t.char_class p))).run
      ⟨x :: (xs ++ r :: rs), c⟩).head? = some ⟨r :: rs, c.set i (some (x :: xs))⟩ := by
  rw [run_group_head i _ _ _ (run_class_plus_head p x xs r rs c hx hxs hr)]
  have e : (x :: (xs ++ r :: rs)).length - (r :: rs).length = (x :: xs).length := by
    simp only [List.length_cons, List.length_append]
    omega
  simp only [e]
  have e2 : List.take (x :: xs).length (x :: (xs ++ r :: rs)) = x :: xs := by
    rw [← List.cons_append]
    exact List.take_left _ _
  rw [e2]

/-- A group of `p+` cannot start at a character outside the class `p`. -/
theorem run_class_then_group_nil (i : Nat) (q p : Char → Bool) (x y : Char)
    (ys : List Char) (c : List (Option (List Char))) (hy : p y = false) :
    (regex_t.seq (regex_t.char_class q)
      (regex_t.group i (regex_t.plus (regex_t.char_class p)))).run ⟨x :: y :: ys, c⟩ = [] := by
  by_cases hq : q x = true <;> simp [regex_t.run, regex_t.plus, hq, hy]

/-! ## Character classes -/

theorem not_dot_of_digit (c : Char) (h : is_digit c = true) : not_dot c = true := by
  unfold not_dot
  by_cases hc : c = '.'
  · subst hc; revert h; decide
  · simp [hc]

theorem not_digit_dot_of_digit (c : Char) (h : is_digit c = true) :
    not_digit_dot c = false := by
  unfold is_digit at h
  simp [not_digit_dot, h]

theorem not_dot_of_not_digit_dot (c : Char) (h : not_digit_dot c = true) :
    not_dot c = true := by
  unfold not_digit_dot at h
  unfold not_dot
  cases hd : (c == '.') <;> simp_all

theorem is_digit_of_alpha (c : Char) (h : c.isAlpha = true) : is_digit c = false := by
  unfold is_digit
  simp only [Char.isAlpha, Char.isUpper, Char.isLower, Char.isDigit, Bool.or_eq_true,
    Bool.and_eq_true, decide_eq_true_eq, ge_iff_le] at h ⊢
  rw [Bool.eq_false_iff]
  intro hd
  simp only [Bool.and_eq_true, decide_eq_true_eq] at hd
  have h1 := hd.1
  have h2 := hd.2
  rw [UInt32.le_def] at h1 h2
  rw [BitVec.le_def] at h1 h2
  change 48 ≤ c.val.toBitVec.toNat at h1
  change c.val.toBitVec.toNat ≤ 57 at h2
  rcases h with ⟨ha, hb⟩ | ⟨ha, hb⟩
  · rw [UInt32.le_def, BitVec.le_def] at ha
    change 65 ≤ c.val.toBitVec.toNat at ha
    omega
  · rw [UInt32.le_def, BitVec.le_def] at ha
    change 97 ≤ c.val.toBitVec.toNat at ha
    omega

theorem is_word_of_alpha (c : Char) (h : c.isAlpha = true) : is_word c = true := by
  simp [is_word, Char.isAlphanum, h]

/-! ## The pieces of `version_regex` -/

/-- The leading group `(?:[^\.]*[^\d\.]{1})*` before a number that ends in a
dot: it consumes the text up to and including the last non-digit. -/
theorem run_leading_head (as : List Char) (a : Char) (bs rs : List Char)
    (c : List (Option (List Char))) (has : ∀ x ∈ as, not_dot x = true)
    (ha : not_digit_dot a = true) (hbs : ∀ x ∈ bs, is_digit x = true) :
    ((regex_t.star (regex_t.seq (regex_t.star (regex_t.char_class not_dot))
      (regex_t.char_class not_digit_dot))).run ⟨as ++ a :: (bs ++ '.' :: rs), c⟩).head? =
      some ⟨bs ++ '.' :: rs, c⟩ := by
  have hbs2 : ∀ x ∈ bs, not_dot x = true ∧ not_digit_dot x = false :=
    fun x hx => ⟨not_dot_of_digit x (hbs x hx), not_digit_dot_of_digit x (hbs x hx)⟩
  have h1 : ((regex_t.seq (regex_t.star (regex_t.char_class not_dot))
      (regex_t.char_class not_digit_dot)).run ⟨as ++ a :: (bs ++ '.' :: rs), c⟩).head? =
      some ⟨bs ++ '.' :: rs, c⟩ := by
    simp only [regex_t.run]
    exact run_class_star_then_class_head not_dot not_digit_dot as a bs '.' rs c has
      (not_dot_of_not_digit_dot a ha) ha hbs2 (by decide) (by decide)
  have h2 : (regex_t.seq (regex_t.star (regex_t.char_class not_dot))
      (regex_t.char_class not_digit_dot)).run ⟨bs ++ '.' :: rs, c⟩ = [] := by
    simp only [regex_t.run]
    exact run_class_star_then_class_nil not_dot not_digit_dot bs '.' rs c hbs2
      (by decide) (by decide)
  have h3 : ((regex_t.star (regex_t.seq (regex_t.star (regex_t.char_class not_dot))
      (regex_t.char_class not_digit_dot))).run ⟨bs ++ '.' :: rs, c⟩).head? =
      some ⟨bs ++ '.' :: rs, c⟩ := by
    rw [run_star, h2]
    simp
  rw [run_star]
  apply head?_append_of_head
  apply head?_flatMap_of_head _ h3
  apply head?_filter_of_head h1
  simp only [List.length_append, List.length_cons, decide_eq_true_eq]
  omega

theorem run_class_star_head_end (p : Char → Bool) (xs : List Char)
    (c : List (Option (List Char))) (hxs : ∀ x ∈ xs, p x = true) :
    ((regex_t.star (regex_t.char_class p)).run ⟨xs, c⟩).head? = some ⟨[], c⟩ := by
  induction xs with
  | nil => simp [run_class_star_nil]
  | cons x xs ih =>
    rw [run_class_star_cons p x _ c (hxs x (List.mem_cons_self _ _))]
    exact head?_append_of_head (ih (fun y hy => hxs y (List.mem_cons_of_mem _ hy)))

/-- The trailing group `(?:[^\d\.]{1}[^\.]*)*` consumes a dot-free text that
starts with a non-digit up to the end of the input. -/
theorem run_trailing_head (a : Char) (xs : List Char) (c : List (Option (List Char)))
    (ha : not_digit_dot a = true) (hxs : ∀ x ∈ xs, not_dot x = true) :
    ((regex_t.star (regex_t.seq (regex_t.char_class not_digit_dot)
      (regex_t.star (regex_t.char_class not_dot)))).run ⟨a :: xs, c⟩).head? =
      some ⟨[], c⟩ := by
  have h1 : ((regex_t.seq (regex_t.char_class not_digit_dot)
      (regex_t.star (regex_t.char_class not_dot))).run ⟨a :: xs, c⟩).head? =
      some ⟨[], c⟩ := by
    apply run_seq_head _ _ _ ⟨xs, c⟩
    · simp [run_char_class_cons, ha]
    · exact run_class_star_head_end not_dot xs c hxs
  have h3 : ((regex_t.star (regex_t.seq (regex_t.char_class not_digit_dot)
      (regex_t.star (regex_t.char_class not_dot)))).run ⟨[], c⟩).head? = some ⟨[], c⟩ := by
    simp [regex_t.run, repeat_greedy]
  rw [run_star]
  apply head?_append_of_head
  apply head?_flatMap_of_head _ h3
  apply head?_filter_of_head h1
  simp

/-! ## Decimal numerals -/

theorem stoul_append_singleton (ds : List Char) (d : Char) :
    stoul (ds ++ [d]) = 10 * stoul ds + (d.toNat - 48) := by
  simp [stoul, List.foldl_append]

theorem digitChar_spec (k : Nat) (h : k < 10) :
    is_digit (Nat.digitChar k) = true ∧ (Nat.digitChar k).toNat - 48 = k := by
  interval_cases k <;> decide

/-- The digits that `Nat.toDigitsCore` puts in front of its accumulator are a
non-empty string of decimal digits whose value is the number. -/
theorem toDigitsCore_spec (fuel : Nat) : ∀ (n : Nat) (acc : List Char), n < fuel →
    ∃ ds, Nat.toDigitsCore 10 fuel n acc = ds ++ acc ∧ ds ≠ [] ∧
      (∀ x ∈ ds, is_digit x = true) ∧ stoul ds = n := by
  induction fuel with
  | zero => intro n acc h; omega
  | succ fuel ih =>
    intro n acc h
    obtain ⟨hd, hv⟩ := digitChar_spec (n % 10) (Nat.mod_lt _ (by decide))
    simp only [Nat.toDigitsCore]
    by_cases h0 : n / 10 = 0
    · refine ⟨[Nat.digitChar (n % 10)], by simp [h0], by simp, by simpa using hd, ?_⟩
      simp only [stoul, List.foldl_cons, List.foldl_nil, hv]
      omega
    · obtain ⟨ds, e, -, hds, hval⟩ := ih (n / 10) (Nat.digitChar (n % 10) :: acc) (by omega)
      refine ⟨ds ++ [Nat.digitChar (n % 10)], by simp [h0, e], by simp, ?_, ?_⟩
      · intro x hx
        rcases List.mem_append.1 hx with hx | hx
        · exact hds x hx
        · rw [List.mem_singleton.1 hx]; exact hd
      · rw [stoul_append_singleton, hval, hv]
        omega

/-- The decimal numeral that `toString` prints for a number is a non-empty
string of digits whose value is the number. -/
theorem toString_nat_spec (n : Nat) :
    ∃ d ds, (toString n).data = d :: ds ∧ is_digit d = true ∧
      (∀ x ∈ ds, is_digit x = true) ∧ stoul (d :: ds) = n := by
  obtain ⟨l, e, hne, hl, hv⟩ := toDigitsCore_spec (n + 1) n [] (by omega)
  have e2 : (toString n).data = l := by
    show (Nat.repr n).data = l
    simp [Nat.repr, Nat.toDigits, e, List.asString]
  cases l with
  | nil => exact absurd rfl hne
  | cons d ds =>
    exact ⟨d, ds, e2, hl d (List.mem_cons_self _ _),
      fun x hx => hl x (List.mem_cons_of_mem _ hx), hv⟩

/-! ## Parsing a version wrapped in free text -/

/-- The match of `version_regex` on `MyApp M.m.p-codename (x64)`, for digit
strings `M`, `m`, `p` and a codename of word characters that starts with a
letter: groups 1, 2, 3 and 5 capture `M`, `m`, `p` and the codename, and group 4
does not match. -/
theorem regex_match_wrapped (d1 : Char) (ds1 : List Char) (d2 : Char) (ds2 : List Char)
    (d3 : Char) (ds3 : List Char) (k : Char) (ks : List Char)
    (h1 : is_digit d1 = true) (hs1 : ∀ x ∈ ds1, is_digit x = true)
    (h2 : is_digit d2 = true) (hs2 : ∀ x ∈ ds2, is_digit x = true)
    (h3 : is_digit d3 = true) (hs3 : ∀ x ∈ ds3, is_digit x = true)
    (hk : k.isAlpha = true) (hks : ∀ x ∈ ks, is_word x = true) :
    regex_match version_regex
      (['M', 'y', 'A', 'p', 'p'] ++ ' ' :: ((d1 :: ds1) ++ '.' :: ((d2 :: ds2) ++ '.' ::
        ((d3 :: ds3) ++ '-' :: ((k :: ks) ++ ' ' :: ['(', 'x', '6', '4', ')']))))) =
      some [none, some (d1 :: ds1), some (d2 :: ds2), some (d3 :: ds3), none,
        some (k :: ks)] := by
  have hhead : (version_regex.run
      ⟨['M', 'y', 'A', 'p', 'p'] ++ ' ' :: ((d1 :: ds1) ++ '.' :: ((d2 :: ds2) ++ '.' ::
        ((d3 :: ds3) ++ '-' :: ((k :: ks) ++ ' ' :: ['(', 'x', '6', '4', ')'])))),
        List.replicate 6 none⟩).head? =
      some ⟨[], [none, some (d1 :: ds1), some (d2 :: ds2), some (d3 :: ds3), none,
        some (k :: ks)]⟩ := by
    unfold version_regex
    refine run_seq_head _ _ _ _ _ (run_leading_head _ _ _ _ _ (by decide) (by decide)
      (by
        intro x hx
        rcases List.mem_cons.1 hx with rfl | hx
        · exact h1
        · exact hs1 x hx)) ?_
    refine run_seq_head _ _ _ _ _
      (run_group_plus_head 1 is_digit d1 ds1 '.' _ _ h1 hs1 (by decide)) ?_
    refine run_seq_head _ _ _ _ _ (by rw [run_char_class_cons]; rfl) ?_
    refine run_seq_head _ _ _ _ _
      (run_group_plus_head 2 is_digit d2 ds2 '.' _ _ h2 hs2 (by decide)) ?_
    refine run_seq_head _ _ _ _ _
      (run_opt_head _ _ _
        (run_seq_head _ _ _ _ _ (by rw [run_char_class_cons]; rfl)
          (run_group_plus_head 3 is_digit d3 ds3 '-' _ _ h3 hs3 (by decide)))
        (by simp only [List.length_cons, List.length_append]; omega)) ?_
    refine run_seq_head _ _ _ _ _
      (by
        rw [run_opt_skip]
        · rfl
        · exact run_class_then_group_nil 4 is_dot_or_dash is_digit '-' k _ _
            (is_digit_of_alpha k hk)) ?_
    refine run_seq_head _ _ _ _ _
      (run_opt_head _ _ _
        (run_seq_head _ _ _ _ _ (by rw [run_char_class_cons]; rfl)
          (run_group_plus_head 5 is_word k ks ' ' _ _ (is_word_of_alpha k hk) hks (by decide)))
        (by simp only [List.length_cons, List.length_append]; omega)) ?_
    exact run_trailing_head ' ' _ _ (by decide) (by decide)
  unfold regex_match
  rw [find?_of_head hhead rfl]
  rfl

/-- C6: for all numbers `M`, `m`, `p` below 2^32 and every codename of word
characters that starts with a letter, `to_version` of
`MyApp M.m.p-codename (x64)` is `{M, m, p, 0, codename}`; in particular
`MyApp 2.5.100-beta (x64)` gives `{2, 5, 100, 0, "beta"}`. -/
theorem to_version_wrapped (M m p : Nat) (codename : String)
    (hM : M < 4294967296) (hm : m < 4294967296) (hp : p < 4294967296)
    (hc : ∃ k ks, codename.data = k :: ks ∧ k.isAlpha = true ∧ ∀ x ∈ ks, is_word x = true) :
    to_version ("MyApp " ++ toString M ++ "." ++ toString m ++ "." ++ toString p ++ "-" ++
        codename ++ " (x64)") =
      { major := M, minor := m, patch := p, build := 0, codename := codename } ∧
    to_version "MyApp 2.5.100-beta (x64)" =
      { major := 2, minor := 5, patch := 100, build := 0, codename := "beta" } := by
  refine ⟨?_, by decide⟩
  obtain ⟨d1, ds1, e1, h1, hs1, v1⟩ := toString_nat_spec M
  obtain ⟨d2, ds2, e2, h2, hs2, v2⟩ := toString_nat_spec m
  obtain ⟨d3, ds3, e3, h3, hs3, v3⟩ := toString_nat_spec p
  obtain ⟨k, ks, ek, hk, hks⟩ := hc
  have hin : ("MyApp " ++ toString M ++ "." ++ toString m ++ "." ++ toString p ++ "-" ++
        codename ++ " (x64)").data =
      ['M', 'y', 'A', 'p', 'p'] ++ ' ' :: ((d1 :: ds1) ++ '.' :: ((d2 :: ds2) ++ '.' ::
        ((d3 :: ds3) ++ '-' :: ((k :: ks) ++ ' ' :: ['(', 'x', '6', '4', ')'])))) := by
    simp only [String.data_append, e1, e2, e3, ek]
    simp
  have hcode : String.mk (k :: ks) = codename := by
    rw [← ek]
  unfold to_version
  rw [hin, regex_match_wrapped d1 ds1 d2 ds2 d3 ds3 k ks h1 hs1 h2 hs2 h3 hs3 hk hks]
  simp only [List.getD_cons_succ, List.getD_cons_zero, capture_number, capture_text, v1, v2, v3,
    Nat.mod_eq_of_lt hM, Nat.mod_eq_of_lt hm, Nat.mod_eq_of_lt hp, hcode]

/-- Witness for `to_version_wrapped`: the numbers 2, 5, 100 and the codename
`beta`. -/
theorem to_version_wrapped_witness :
    to_version ("MyApp " ++ toString 2 ++ "." ++ toString 5 ++ "." ++ toString 100 ++ "-" ++
        "beta" ++ " (x64)") =
      { major := 2, minor := 5, patch := 100, build := 0, codename := "beta" } :=
  (to_version_wrapped 2 5 100 "beta" (by decide) (by decide) (by decide)
    ⟨'b', ['e', 't', 'a'], rfl, by decide, by decide⟩).1

/-! ## Double-precision rounding -/

theorem pow2_eq_zpow (k : Int) : pow2 k = (2 : ℚ) ^ k := by
  unfold pow2
  split
  · rename_i h
    obtain ⟨n, rfl⟩ := Int.eq_ofNat_of_zero_le h
    simp
  · rename_i h
    obtain ⟨n, hn⟩ := Int.eq_ofNat_of_zero_le (show 0 ≤ -k by omega)
    have hk : k = -(n : Int) := by omega
    subst hk
    simp

theorem pow2_pos (k : Int) : 0 < pow2 k := by
  rw [pow2_eq_zpow]
  positivity

/-- The exponent computed by `binade` is the binary exponent of `x`. -/
theorem binade_spec (x : ℚ) (hx : 0 < x) :
    (2 : ℚ) ^ binade x ≤ x ∧ x < (2 : ℚ) ^ (binade x + 1) := by
  have hnum : 0 < x.num := Rat.num_pos.2 hx
  have hp0 : x.num.natAbs ≠ 0 := by omega
  have hden0 : x.den ≠ 0 := x.den_nz
  have hp1 := Nat.log2_self_le hp0
  have hp2 := @Nat.lt_log2_self x.num.natAbs
  have hq1 := Nat.log2_self_le hden0
  have hq2 := @Nat.lt_log2_self x.den
  have hcast : ((x.num.natAbs : Nat) : ℚ) = (x.num : ℚ) := by
    have h := congrArg (Int.cast : Int → ℚ) (Int.natAbs_of_nonneg hnum.le)
    rwa [Int.cast_natCast] at h
  have hdpos : (0 : ℚ) < (x.den : ℚ) := by exact_mod_cast Nat.pos_of_ne_zero hden0
  have hmul : x * (x.den : ℚ) = (x.num.natAbs : ℚ) := by
    rw [hcast]
    exact Rat.mul_den_eq_num x
  have hp1q : (2 : ℚ) ^ (Nat.log2 x.num.natAbs) ≤ (x.num.natAbs : ℚ) := by exact_mod_cast hp1
  have hp2q : (x.num.natAbs : ℚ) < (2 : ℚ) ^ (Nat.log2 x.num.natAbs + 1) := by
    exact_mod_cast hp2
  have hq1q : (2 : ℚ) ^ (Nat.log2 x.den) ≤ (x.den : ℚ) := by exact_mod_cast hq1
  have hq2q : (x.den : ℚ) < (2 : ℚ) ^ (Nat.log2 x.den + 1) := by exact_mod_cast hq2
  have two_ne : (2 : ℚ) ≠ 0 := by norm_num
  have lo : (2 : ℚ) ^ ((Nat.log2 x.num.natAbs : Int) - (Nat.log2 x.den : Int) - 1) < x := by
    have e : (2 : ℚ) ^ ((Nat.log2 x.num.natAbs : Int) - (Nat.log2 x.den : Int) - 1) =
        (2 : ℚ) ^ (Nat.log2 x.num.natAbs) / (2 : ℚ) ^ (Nat.log2 x.den + 1) := by
      rw [show ((Nat.log2 x.num.natAbs : Int) - (Nat.log2 x.den : Int) - 1) =
        (Nat.log2 x.num.natAbs : Int) - ((Nat.log2 x.den + 1 : Nat) : Int) by push_cast; ring]
      rw [zpow_sub₀ two_ne, zpow_natCast, zpow_natCast]
    rw [e, div_lt_iff₀ (by positivity)]
    calc (2 : ℚ) ^ (Nat.log2 x.num.natAbs) ≤ x * (x.den : ℚ) := by rw [hmul]; exact hp1q
      _ < x * (2 : ℚ) ^ (Nat.log2 x.den + 1) := mul_lt_mul_of_pos_left hq2q hx
  have hi : x < (2 : ℚ) ^ ((Nat.log2 x.num.natAbs : Int) - (Nat.log2 x.den : Int) + 1) := by
    have e : (2 : ℚ) ^ ((Nat.log2 x.num.natAbs : Int) - (Nat.log2 x.den : Int) + 1) =
        (2 : ℚ) ^ (Nat.log2 x.num.natAbs + 1) / (2 : ℚ) ^ (Nat.log2 x.den) := by
      rw [show ((Nat.log2 x.num.natAbs : Int) - (Nat.log2 x.den : Int) + 1) =
        ((Nat.log2 x.num.natAbs + 1 : Nat) : Int) - (Nat.log2 x.den : Int) by push_cast; ring]
      rw [zpow_sub₀ two_ne, zpow_natCast, zpow_natCast]
    rw [e, lt_div_iff₀ (by positivity)]
    calc x * (2 : ℚ) ^ (Nat.log2 x.den) ≤ x * (x.den : ℚ) :=
          mul_le_mul_of_nonneg_left hq1q hx.le
      _ < (2 : ℚ) ^ (Nat.log2 x.num.natAbs + 1) := by rw [hmul]; exact hp2q
  unfold binade
  simp only []
  rw [pow2_eq_zpow]
  split
  · rename_i hlt
    refine ⟨lo.le, ?_⟩
    rw [sub_add_cancel]
    exact hlt
  · rename_i hge
    exact ⟨not_lt.1 hge, hi⟩

/-- The binary exponent is determined by the two bounds. -/
theorem binade_unique (x : ℚ) (e : Int) (hx : 0 < x) (h1 : (2 : ℚ) ^ e ≤ x)
    (h2 : x < (2 : ℚ) ^ (e + 1)) : binade x = e := by
  obtain ⟨b1, b2⟩ := binade_spec x hx
  have one_lt : (1 : ℚ) < 2 := by norm_num
  have k1 : (2 : ℚ) ^ e < (2 : ℚ) ^ (binade x + 1) := lt_of_le_of_lt h1 b2
  have k2 : (2 : ℚ) ^ binade x < (2 : ℚ) ^ (e + 1) := lt_of_le_of_lt b1 h2
  rw [zpow_lt_zpow_iff_right₀ one_lt] at k1 k2
  omega

theorem round_even_spec (y : ℚ) : |(round_even y : ℚ) - y| ≤ 1 / 2 := by
  have f1 := Int.floor_le y
  have f2 := Int.lt_floor_add_one y
  unfold round_even
  simp only []
  rw [abs_le]
  split
  · constructor <;> linarith
  · split
    · push_cast
      constructor <;> linarith
    · split
      · constructor <;> linarith
      · push_cast
        constructor <;> linarith

/-- Away from a tie the rounding is the only integer within a half. -/
theorem round_even_unique (y : ℚ) (N : Int) (h : |(N : ℚ) - y| < 1 / 2) :
    round_even y = N := by
  have hs := round_even_spec y
  rw [abs_le] at hs
  rw [abs_lt] at h
  have h1 : ((round_even y : Int) : ℚ) - (N : ℚ) < 1 := by linarith
  have h2 : ((N : Int) : ℚ) - (round_even y : ℚ) < 1 := by linarith
  have h3 : round_even y - N < 1 := by exact_mod_cast h1
  have h4 : N - round_even y < 1 := by exact_mod_cast h2
  omega

/-- Rounding to 53 significant bits has a relative error of at most `2 ^ (-53)`. -/
theorem fl_pos_err (x : ℚ) (hx : 0 < x) : |fl_pos x - x| ≤ x / 2 ^ 53 := by
  obtain ⟨b1, -⟩ := binade_spec x hx
  have hs : 0 < pow2 (binade x - 52) := pow2_pos _
  have hr := round_even_spec (x / pow2 (binade x - 52))
  have e1 : fl_pos x - x =
      ((round_even (x / pow2 (binade x - 52)) : ℚ) - x / pow2 (binade x - 52)) *
        pow2 (binade x - 52) := by
    unfold fl_pos
    field_simp
  have e2 : pow2 (binade x - 52) = (2 : ℚ) ^ binade x / 2 ^ 52 := by
    rw [pow2_eq_zpow, zpow_sub₀ (by norm_num : (2 : ℚ) ≠ 0)]
    norm_num
  rw [e1, abs_mul, abs_of_pos hs]
  calc |(round_even (x / pow2 (binade x - 52)) : ℚ) - x / pow2 (binade x - 52)| *
        pow2 (binade x - 52)
      ≤ 1 / 2 * pow2 (binade x - 52) := mul_le_mul_of_nonneg_right hr hs.le
    _ = (2 : ℚ) ^ binade x / 2 ^ 53 := by rw [e2]; ring
    _ ≤ x / 2 ^ 53 := by
        apply div_le_div_of_nonneg_right b1 (by positivity)

/-- A rounding can be certified by its exponent and its significand. -/
theorem fl_pos_eq_of (x : ℚ) (e N : Int) (hx : 0 < x) (h1 : (2 : ℚ) ^ e ≤ x)
    (h2 : x < (2 : ℚ) ^ (e + 1)) (h3 : |(N : ℚ) - x / (2 : ℚ) ^ (e - 52)| < 1 / 2) :
    fl_pos x = (N : ℚ) * (2 : ℚ) ^ (e - 52) := by
  unfold fl_pos
  rw [binade_unique x e hx h1 h2, pow2_eq_zpow, round_even_unique _ N h3]

theorem fl_of_pos (x : ℚ) (hx : 0 < x) : fl x = fl_pos x := by
  unfold fl
  rw [if_neg hx.ne', if_pos hx]

/-- Rounding a positive number moves it by a factor between `1 - 2 ^ (-53)` and
`1 + 2 ^ (-53)`. -/
theorem fl_rel (x : ℚ) (hx : 0 < x) :
    x * (1 - 1 / 2 ^ 53) ≤ fl x ∧ fl x ≤ x * (1 + 1 / 2 ^ 53) := by
  rw [fl_of_pos x hx]
  have h := fl_pos_err x hx
  rw [abs_le] at h
  constructor <;> linarith [h.1, h.2]

theorem fl_pos_of_pos (x : ℚ) (hx : 0 < x) : 0 < fl x := by
  have h := (fl_rel x hx).1
  have : 0 < x * (1 - 1 / 2 ^ 53) := mul_pos hx (by norm_num)
  linarith

/-- The double-precision quotient `(w * 25.4) / mm` lies within a factor
`1 ± 2 ^ (-51)` of the exact quotient. -/
theorem fl_quotient_rel (w mm : ℚ) (hw : 0 < w) (hmm : 0 < mm) :
    w * (127 / 5) / mm * (1 - 1 / 2 ^ 51) ≤ fl (fl (w * fl (127 / 5)) / mm) ∧
    fl (fl (w * fl (127 / 5)) / mm) ≤ w * (127 / 5) / mm * (1 + 1 / 2 ^ 51) ∧
    0 < fl (fl (w * fl (127 / 5)) / mm) := by
  obtain ⟨c1, c2⟩ := fl_rel (127 / 5) (by norm_num)
  have hc : 0 < fl (127 / 5) := fl_pos_of_pos _ (by norm_num)
  have ha : 0 < w * fl (127 / 5) := mul_pos hw hc
  obtain ⟨a1, a2⟩ := fl_rel _ ha
  have hx1 : 0 < fl (w * fl (127 / 5)) := fl_pos_of_pos _ ha
  have hb : 0 < fl (w * fl (127 / 5)) / mm := div_pos hx1 hmm
  obtain ⟨b1, b2⟩ := fl_rel _ hb
  have hx2 : 0 < fl (fl (w * fl (127 / 5)) / mm) := fl_pos_of_pos _ hb
  generalize fl (127 / 5) = c at *
  generalize fl (w * c) = x1 at *
  generalize fl (x1 / mm) = x2 at *
  have hwc1 : w * (127 / 5 * (1 - 1 / 2 ^ 53)) ≤ w * c := mul_le_mul_of_nonneg_left c1 hw.le
  have hwc2 : w * c ≤ w * (127 / 5 * (1 + 1 / 2 ^ 53)) := mul_le_mul_of_nonneg_left c2 hw.le
  have up : (0 : ℚ) < 1 + 1 / 2 ^ 53 := by norm_num
  have um : (0 : ℚ) < 1 - 1 / 2 ^ 53 := by norm_num
  have x1lo : w * (127 / 5 * (1 - 1 / 2 ^ 53)) * (1 - 1 / 2 ^ 53) ≤ x1 :=
    le_trans (mul_le_mul_of_nonneg_right hwc1 um.le) a1
  have x1hi : x1 ≤ w * (127 / 5 * (1 + 1 / 2 ^ 53)) * (1 + 1 / 2 ^ 53) :=
    le_trans a2 (mul_le_mul_of_nonneg_right hwc2 up.le)
  have blo : w * (127 / 5 * (1 - 1 / 2 ^ 53)) * (1 - 1 / 2 ^ 53) / mm ≤ x1 / mm :=
    div_le_div_of_nonneg_right x1lo hmm.le
  have bhi : x1 / mm ≤ w * (127 / 5 * (1 + 1 / 2 ^ 53)) * (1 + 1 / 2 ^ 53) / mm :=
    div_le_div_of_nonneg_right x1hi hmm.le
  have x2lo : w * (127 / 5 * (1 - 1 / 2 ^ 53)) * (1 - 1 / 2 ^ 53) / mm * (1 - 1 / 2 ^ 53) ≤ x2 :=
    le_trans (mul_le_mul_of_nonneg_right blo um.le) b1
  have x2hi : x2 ≤ w * (127 / 5 * (1 + 1 / 2 ^ 53)) * (1 + 1 / 2 ^ 53) / mm * (1 + 1 / 2 ^ 53) :=
    le_trans b2 (mul_le_mul_of_nonneg_right bhi up.le)
  have hQ : 0 < w * (127 / 5) / mm := div_pos (mul_pos hw (by norm_num)) hmm
  have e1 : w * (127 / 5 * (1 - 1 / 2 ^ 53)) * (1 - 1 / 2 ^ 53) / mm * (1 - 1 / 2 ^ 53) =
      w * (127 / 5) / mm * ((1 - 1 / 2 ^ 53) * (1 - 1 / 2 ^ 53) * (1 - 1 / 2 ^ 53)) := by
    field_simp
    ring
  have e2 : w * (127 / 5 * (1 + 1 / 2 ^ 53)) * (1 + 1 / 2 ^ 53) / mm * (1 + 1 / 2 ^ 53) =
      w * (127 / 5) / mm * ((1 + 1 / 2 ^ 53) * (1 + 1 / 2 ^ 53) * (1 + 1 / 2 ^ 53)) := by
    field_simp
    ring
  refine ⟨?_, ?_, hx2⟩
  · refine le_trans ?_ x2lo
    rw [e1]
    exact mul_le_mul_of_nonneg_left (by norm_num) hQ.le
  · refine le_trans x2hi ?_
    rw [e2]
    exact mul_le_mul_of_nonneg_left (by norm_num) hQ.le

theorem fl_25_4 : fl (127 / 5) = 3574732204225331 / 140737488355328 := by
  rw [fl_of_pos _ (by norm_num),
    fl_pos_eq_of (127 / 5) 4 7149464408450662 (by norm_num) (by norm_num) (by norm_num)
      (by rw [abs_lt]; norm_num)]
  norm_num


theorem fl_zero : fl 0 = 0 := by
  simp [fl]

theorem round_even_intCast (z : Int) : round_even (z : ℚ) = z :=
  round_even_unique _ z (by simp)

/-- Every natural number below `2 ^ 53` is a `double`: the conversion of such an
integer is exact. -/
theorem fl_natCast (n : Nat) (h : n < 2 ^ 53) : fl (n : ℚ) = (n : ℚ) := by
  rcases Nat.eq_zero_or_pos n with h0 | hpos
  · subst h0
    simp [fl_zero]
  · have hx : (0 : ℚ) < (n : ℚ) := by exact_mod_cast hpos
    rw [fl_of_pos _ hx]
    obtain ⟨b1, b2⟩ := binade_spec (n : ℚ) hx
    have hlt : (n : ℚ) < (2 : ℚ) ^ (53 : Int) := by
      have h53 : (n : ℚ) < (2 : ℚ) ^ (53 : Nat) := by exact_mod_cast h
      rw [← zpow_natCast] at h53
      exact h53
    have he : binade (n : ℚ) < 53 := by
      have := lt_of_le_of_lt b1 hlt
      rwa [zpow_lt_zpow_iff_right₀ (by norm_num : (1 : ℚ) < 2)] at this
    obtain ⟨m, hm⟩ := Int.eq_ofNat_of_zero_le (show 0 ≤ 52 - binade (n : ℚ) by omega)
    have hs : (2 : ℚ) ^ (binade (n : ℚ) - 52) = ((2 : ℚ) ^ m)⁻¹ := by
      rw [show binade (n : ℚ) - 52 = -(m : Int) by omega, zpow_neg, zpow_natCast]
    have hN : (((n * 2 ^ m : Nat) : Int) : ℚ) = (n : ℚ) / (2 : ℚ) ^ (binade (n : ℚ) - 52) := by
      rw [hs]
      push_cast
      field_simp
    rw [fl_pos_eq_of (n : ℚ) (binade (n : ℚ)) ((n * 2 ^ m : Nat) : Int) hx b1 b2
      (by rw [hN]; simp)]
    rw [hN]
    field_simp

namespace graphics

/-! ## Refresh rate -/

/-- The conversion of an integer to `double` followed by the division by
`1000.0` gives back the integer, times 1000, up to a relative `2 ^ (-51)`. -/
theorem fl_div_1000_rel (n : Nat) :
    |fl (fl (n : ℚ) / 1000) * 1000 - (n : ℚ)| ≤ (n : ℚ) / 2 ^ 51 := by
  rcases Nat.eq_zero_or_pos n with h0 | hpos
  · subst h0
    simp [fl_zero]
  · have hx : (0 : ℚ) < (n : ℚ) := by exact_mod_cast hpos
    obtain ⟨a1, a2⟩ := fl_rel _ hx
    have ha : 0 < fl (n : ℚ) := fl_pos_of_pos _ hx
    have hb : 0 < fl (n : ℚ) / 1000 := div_pos ha (by norm_num)
    obtain ⟨b1, b2⟩ := fl_rel _ hb
    generalize fl (n : ℚ) = a at *
    generalize fl (a / 1000) = r at *
    generalize (n : ℚ) = x at *
    have up : (0 : ℚ) ≤ 1 + 1 / 2 ^ 53 := by norm_num
    have um : (0 : ℚ) ≤ 1 - 1 / 2 ^ 53 := by norm_num
    have hi : r * 1000 ≤ x * (1 + 1 / 2 ^ 53) * (1 + 1 / 2 ^ 53) := by
      have h1 : r * 1000 ≤ a * (1 + 1 / 2 ^ 53) := by linarith
      exact le_trans h1 (mul_le_mul_of_nonneg_right a2 up)
    have lo : x * (1 - 1 / 2 ^ 53) * (1 - 1 / 2 ^ 53) ≤ r * 1000 := by
      have h1 : a * (1 - 1 / 2 ^ 53) ≤ r * 1000 := by linarith
      exact le_trans (mul_le_mul_of_nonneg_right a1 um) h1
    have e1 : x * (1 + 1 / 2 ^ 53) * (1 + 1 / 2 ^ 53) =
        x + x * ((1 + 1 / 2 ^ 53) * (1 + 1 / 2 ^ 53) - 1) := by ring
    have e2 : x * (1 - 1 / 2 ^ 53) * (1 - 1 / 2 ^ 53) =
        x - x * (1 - (1 - 1 / 2 ^ 53) * (1 - 1 / 2 ^ 53)) := by ring
    have k1 : x * ((1 + 1 / 2 ^ 53) * (1 + 1 / 2 ^ 53) - 1) ≤ x * (1 / 2 ^ 51) :=
      mul_le_mul_of_nonneg_left (by norm_num) hx.le
    have k2 : x * (1 - (1 - 1 / 2 ^ 53) * (1 - 1 / 2 ^ 53)) ≤ x * (1 / 2 ^ 51) :=
      mul_le_mul_of_nonneg_left (by norm_num) hx.le
    have e3 : x / 2 ^ 51 = x * (1 / 2 ^ 51) := by ring
    rw [abs_le, e3]
    constructor <;> linarith

/-- The value that `calculate_frequency` returns when the first mode of the
table has the requested id, nonzero totals and a nonzero divisor. -/
theorem calculate_frequency_head (mode : XRRModeInfo) (rest : List XRRModeInfo) (mode_id : Nat)
    (hid : mode.id = mode_id) (hz : mode.hTotal ≠ 0 ∧ mode.vTotal ≠ 0)
    (hden : (mode.hTotal * mode.vTotal) % 4294967296 ≠ 0) :
    calculate_frequency (mode :: rest) mode_id =
      some (fl (fl ((((1000 * mode.dotClock) % 18446744073709551616) /
        ((mode.hTotal * mode.vTotal) % 4294967296) : Nat) : ℚ) / 1000)) := by
  simp only [calculate_frequency, hid, if_true, hz, ne_eq, not_false_eq_true, and_self, hden,
    if_false]

/-- C10 (as amended): for every mode table and mode id such that the first mode
with that id, if any, has products `1000 * dotClock < 2^64` and
`hTotal * vTotal < 2^32`: with both totals nonzero, the result is defined and
1000 times it is the integer quotient `n` of `1000 * dotClock` by
`hTotal * vTotal` up to the rounding of the `double`, within `n / 2^51`; with a
zero total, or with no mode of that id, the result is 0. -/
theorem calculate_frequency_rounded (modes : List XRRModeInfo) (mode_id : Nat)
    (hfit : ∀ mode, modes.find? (fun mode => decide (mode.id = mode_id)) = some mode →
      products_fit mode) :
    frequency_rounded_spec modes mode_id := by
  induction modes with
  | nil => simp [frequency_rounded_spec, calculate_frequency]
  | cons mode rest ih =>
    by_cases hid : mode.id = mode_id
    · have hp := hfit mode (by simp [List.find?_cons, hid])
      obtain ⟨hn, hd⟩ := hp
      unfold frequency_rounded_spec
      simp only [List.find?_cons, hid, decide_True]
      by_cases hz : mode.hTotal ≠ 0 ∧ mode.vTotal ≠ 0
      · have hpos : mode.hTotal * mode.vTotal ≠ 0 := Nat.mul_ne_zero hz.1 hz.2
        have hden : (mode.hTotal * mode.vTotal) % 4294967296 ≠ 0 := by
          rw [Nat.mod_eq_of_lt hd]
          exact hpos
        rw [if_pos hz, calculate_frequency_head mode rest mode_id hid hz hden,
          Nat.mod_eq_of_lt hn, Nat.mod_eq_of_lt hd]
        exact ⟨_, rfl, fl_div_1000_rel _⟩
      · rw [if_neg hz]
        simp only [calculate_frequency, hid, if_true, hz, if_false]
    · have ih2 := ih (fun m hm => hfit m (by simpa [List.find?_cons, hid] using hm))
      unfold frequency_rounded_spec at ih2 ⊢
      simp only [List.find?_cons, hid, decide_False]
      have hc : calculate_frequency (mode :: rest) mode_id = calculate_frequency rest mode_id := by
        simp [calculate_frequency, hid]
      rw [hc]
      exact ih2

/-- Witness for `calculate_frequency_rounded`: a 1920x1080 mode at 148.5 MHz
with totals 2200 and 1125, listed after a mode with another id. -/
theorem calculate_frequency_rounded_witness :
    frequency_rounded_spec [⟨7, 25175000, 800, 525⟩, ⟨9, 148500000, 2200, 1125⟩] 9 :=
  calculate_frequency_rounded [⟨7, 25175000, 800, 525⟩, ⟨9, 148500000, 2200, 1125⟩] 9
    (by
      intro mode hm
      simp [List.find?_cons] at hm
      subst hm
      decide)

/-- The mode of 148.5 MHz with totals 2200 and 1125 has a refresh rate of
exactly 60. -/
theorem calculate_frequency_60 :
    calculate_frequency [⟨9, 148500000, 2200, 1125⟩] 9 = some 60 := by
  rw [calculate_frequency_head _ _ _ rfl (by decide) (by decide)]
  have e : ((1000 * 148500000 % 18446744073709551616 / (2200 * 1125 % 4294967296) : Nat) : ℚ) =
      ((60000 : Nat) : ℚ) := by norm_num
  have e2 : (((60000 : Nat) : ℚ)) / 1000 = ((60 : Nat) : ℚ) := by norm_num
  simp only [e]
  rw [fl_natCast 60000 (by norm_num), e2, fl_natCast 60 (by norm_num)]
  norm_num

/-- C10 (counterexample): for the mode with `dotClock = 32001`, `hTotal = 1000`
and `vTotal = 1` no product wraps and the integer quotient is 32001, but the
`double` nearest to 32.001 is returned and 1000 times it is not 32001. For the
mode with `dotClock = 65536`, `hTotal = 65536` and `vTotal = 65537` the 32-bit
product of the totals is 65536, so the result is 1, whereas the quotient by the
true product is 0. -/
theorem calculate_frequency_spec_fails :
    products_fit ⟨1, 32001, 1000, 1⟩ ∧
    calculate_frequency [⟨1, 32001, 1000, 1⟩] 1 =
      some (4503740364858851 / 140737488355328) ∧
    ¬ frequency_spec [⟨1, 32001, 1000, 1⟩] 1 ∧
    XRRModeInfo.WF ⟨1, 65536, 65536, 65537⟩ ∧
    calculate_frequency [⟨1, 65536, 65536, 65537⟩] 1 = some 1 ∧
    1000 * 65536 / (65536 * 65537) = 0 ∧
    ¬ frequency_spec [⟨1, 65536, 65536, 65537⟩] 1 := by
  have h1 : calculate_frequency [⟨1, 32001, 1000, 1⟩] 1 =
      some (4503740364858851 / 140737488355328) := by
    rw [calculate_frequency_head _ _ _ rfl (by decide) (by decide)]
    have e : ((1000 * 32001 % 18446744073709551616 / (1000 * 1 % 4294967296) : Nat) : ℚ) =
        ((32001 : Nat) : ℚ) := by norm_num
    simp only [e]
    rw [fl_natCast 32001 (by norm_num), fl_of_pos _ (by norm_num),
      fl_pos_eq_of _ 5 4503740364858851 (by norm_num) (by norm_num) (by norm_num)
        (by rw [abs_lt]; norm_num)]
    norm_num
  have h2 : calculate_frequency [⟨1, 65536, 65536, 65537⟩] 1 = some 1 := by
    rw [calculate_frequency_head _ _ _ rfl (by decide) (by decide)]
    have e : ((1000 * 65536 % 18446744073709551616 / (65536 * 65537 % 4294967296) : Nat) : ℚ) =
        ((1000 : Nat) : ℚ) := by norm_num
    have e2 : (((1000 : Nat) : ℚ)) / 1000 = ((1 : Nat) : ℚ) := by norm_num
    simp only [e]
    rw [fl_natCast 1000 (by norm_num), e2, fl_natCast 1 (by norm_num)]
    norm_num
  refine ⟨by decide, h1, ?_, by decide, h2, by decide, ?_⟩
  · unfold frequency_spec
    simp only [List.find?_cons, decide_True, h1]
    norm_num
  · unfold frequency_spec
    simp only [List.find?_cons, decide_True, h2]
    norm_num

/-! ## Dots per inch -/

/-- The dpi computed in double precision is defined and lies between the exact
quotient minus one and the exact quotient. -/
theorem display_dpi_bounds (w mm : Int) (hw0 : 0 ≤ w) (hw1 : w ≤ 2147483647) (hmm : 0 < mm)
    (hq : 254 * w ≤ 10 * mm * 4294967295) :
    ∃ n : Nat, display_dpi w mm = some n ∧
      (n : ℚ) ≤ (w : ℚ) * (127 / 5) / (mm : ℚ) ∧
      (w : ℚ) * (127 / 5) / (mm : ℚ) - 1 ≤ (n : ℚ) := by
  have hmmq : (0 : ℚ) < (mm : ℚ) := by exact_mod_cast hmm
  rcases eq_or_lt_of_le hw0 with h0 | hpos
  · subst h0
    refine ⟨0, ?_, by simp, by simp⟩
    simp [display_dpi, hmm.ne', fl]
  · have hwq : (0 : ℚ) < (w : ℚ) := by exact_mod_cast hpos
    obtain ⟨lo, hi, hx2⟩ := fl_quotient_rel (w : ℚ) (mm : ℚ) hwq hmmq
    have hw1q : (w : ℚ) ≤ 2147483647 := by exact_mod_cast hw1
    have hqq : 254 * (w : ℚ) ≤ 10 * (mm : ℚ) * 4294967295 := by exact_mod_cast hq
    generalize hx : fl (fl ((w : ℚ) * fl (127 / 5)) / (mm : ℚ)) = x2 at lo hi hx2
    have hQle : (w : ℚ) * (127 / 5) / (mm : ℚ) ≤ 4294967295 := by
      rw [div_le_iff₀ hmmq]
      linarith
    have hQpos : 0 < (w : ℚ) * (127 / 5) / (mm : ℚ) := div_pos (mul_pos hwq (by norm_num)) hmmq
    have hx2lt : x2 < 4294967296 := by
      have : (w : ℚ) * (127 / 5) / (mm : ℚ) * (1 + 1 / 2 ^ 51) ≤ 4294967295 * (1 + 1 / 2 ^ 51) :=
        mul_le_mul_of_nonneg_right hQle (by norm_num)
      have : (4294967295 : ℚ) * (1 + 1 / 2 ^ 51) < 4294967296 := by norm_num
      linarith
    have hfl0 : 0 ≤ ⌊x2⌋ := Int.floor_nonneg.2 hx2.le
    have hn : ((Int.toNat ⌊x2⌋ : Nat) : ℚ) = (⌊x2⌋ : ℚ) := by
      have := Int.toNat_of_nonneg hfl0
      exact_mod_cast this
    have f1 := Int.floor_le x2
    have f2 := Int.lt_floor_add_one x2
    have hdpi : display_dpi w mm = some (Int.toNat ⌊x2⌋) := by
      unfold display_dpi
      rw [if_neg hmm.ne']
      simp only [hx]
      rw [if_neg]
      intro hor
      rcases hor with h | h <;> linarith
    refine ⟨Int.toNat ⌊x2⌋, hdpi, ?_, ?_⟩
    · rw [hn]
      by_contra hcon
      push_neg at hcon
      rw [div_lt_iff₀ hmmq] at hcon
      have hint : 127 * w < ⌊x2⌋ * (5 * mm) := by
        have : (127 : ℚ) * (w : ℚ) < (⌊x2⌋ : ℚ) * (5 * (mm : ℚ)) := by linarith
        exact_mod_cast this
      have hint2 : (127 : ℚ) * (w : ℚ) + 1 ≤ (⌊x2⌋ : ℚ) * (5 * (mm : ℚ)) := by
        have : 127 * w + 1 ≤ ⌊x2⌋ * (5 * mm) := by omega
        exact_mod_cast this
      have h5 : (⌊x2⌋ : ℚ) * (5 * (mm : ℚ)) ≤
          (w : ℚ) * (127 / 5) / (mm : ℚ) * (1 + 1 / 2 ^ 51) * (5 * (mm : ℚ)) :=
        mul_le_mul_of_nonneg_right (le_trans f1 hi) (by linarith)
      have e : (w : ℚ) * (127 / 5) / (mm : ℚ) * (1 + 1 / 2 ^ 51) * (5 * (mm : ℚ)) =
          127 * (w : ℚ) * (1 + 1 / 2 ^ 51) := by
        field_simp
        ring
      rw [e] at h5
      have : 127 * (w : ℚ) * (1 / 2 ^ 51) < 1 := by
        have : 127 * (w : ℚ) * (1 / 2 ^ 51) ≤ 127 * 2147483647 * (1 / 2 ^ 51) := by
          apply mul_le_mul_of_nonneg_right _ (by norm_num)
          linarith
        have : (127 : ℚ) * 2147483647 * (1 / 2 ^ 51) < 1 := by norm_num
        linarith
      linarith
    · rw [hn]
      by_contra hcon
      push_neg at hcon
      have hcon2 : (⌊x2⌋ : ℚ) + 1 < (w : ℚ) * (127 / 5) / (mm : ℚ) := by linarith
      rw [lt_div_iff₀ hmmq] at hcon2
      have hint : (⌊x2⌋ + 1) * (5 * mm) < 127 * w := by
        have : ((⌊x2⌋ : ℚ) + 1) * (5 * (mm : ℚ)) < (127 : ℚ) * (w : ℚ) := by linarith
        exact_mod_cast this
      have hint2 : ((⌊x2⌋ : ℚ) + 1) * (5 * (mm : ℚ)) + 1 ≤ (127 : ℚ) * (w : ℚ) := by
        have : (⌊x2⌋ + 1) * (5 * mm) + 1 ≤ 127 * w := by omega
        exact_mod_cast this
      have h5 : (w : ℚ) * (127 / 5) / (mm : ℚ) * (1 - 1 / 2 ^ 51) * (5 * (mm : ℚ)) ≤
          ((⌊x2⌋ : ℚ) + 1) * (5 * (mm : ℚ)) :=
        mul_le_mul_of_nonneg_right (le_trans lo f2.le) (by linarith)
      have e : (w : ℚ) * (127 / 5) / (mm : ℚ) * (1 - 1 / 2 ^ 51) * (5 * (mm : ℚ)) =
          127 * (w : ℚ) * (1 - 1 / 2 ^ 51) := by
        field_simp
        ring
      rw [e] at h5
      have : 127 * (w : ℚ) * (1 / 2 ^ 51) < 1 := by
        have : 127 * (w : ℚ) * (1 / 2 ^ 51) ≤ 127 * 2147483647 * (1 / 2 ^ 51) := by
          apply mul_le_mul_of_nonneg_right _ (by norm_num)
          linarith
        have : (127 : ℚ) * 2147483647 * (1 / 2 ^ 51) < 1 := by norm_num
        linarith
      linarith
/-- In double precision `(645 * 25.4) / 127` falls just below 129, although the
exact quotient is 129, and the cast gives 128. -/
theorem display_dpi_645_127 : display_dpi 645 127 = some 128 := by
  have h1 : fl ((645 : ℚ) * (3574732204225331 / 140737488355328)) =
      9006649498927103 / 549755813888 := by
    rw [fl_of_pos _ (by norm_num),
      fl_pos_eq_of _ 13 9006649498927103 (by norm_num) (by norm_num) (by norm_num)
        (by rw [abs_lt]; norm_num)]
    norm_num
  have h2 : fl ((9006649498927103 / 549755813888 : ℚ) / 127) =
      4538783999459327 / 35184372088832 := by
    rw [fl_of_pos _ (by norm_num),
      fl_pos_eq_of _ 7 4538783999459327 (by norm_num) (by norm_num) (by norm_num)
        (by rw [abs_lt]; norm_num)]
    norm_num
  have h3 : ⌊(4538783999459327 / 35184372088832 : ℚ)⌋ = 128 := by
    rw [Int.floor_eq_iff]
    norm_num
  unfold display_dpi
  rw [if_neg (by norm_num)]
  simp only [Int.cast_ofNat, fl_25_4, h1, h2, h3]
  norm_num
  rfl

theorem display_dpi_1920_527 : display_dpi 1920 527 = some 92 := by
  obtain ⟨n, hn, h1, h2⟩ := display_dpi_bounds 1920 527 (by norm_num) (by norm_num)
    (by norm_num) (by norm_num)
  rw [hn]
  have h3 : (n : ℚ) < 93 := by
    have : ((1920 : Int) : ℚ) * (127 / 5) / ((527 : Int) : ℚ) < 93 := by norm_num
    linarith
  have h4 : (91 : ℚ) < (n : ℚ) := by
    have : (92 : ℚ) < ((1920 : Int) : ℚ) * (127 / 5) / ((527 : Int) : ℚ) := by norm_num
    linarith
  have h5 : n < 93 := by exact_mod_cast h3
  have h6 : 91 < n := by exact_mod_cast h4
  have : n = 92 := by omega
  rw [this]

theorem displays_some (scr : screen_t) (orientation_cast : Nat → orientation_t) :
    displays (some scr) orientation_cast =
      displays_loop scr orientation_cast scr.monitors := rfl

/-- One pass of the loop of `displays` over a connected monitor appends its
record. -/
theorem displays_loop_cons_connected (scr : screen_t) (orientation_cast : Nat → orientation_t)
    (m : monitor_t) (rest : List monitor_t) (f : ℚ) (n : Nat) (records : List display_t)
    (hd : disconnected m = false)
    (hf : calculate_frequency scr.modes m.crtc_info.mode = some f)
    (hn : display_dpi scr.width scr.width_mm = some n)
    (hr : displays_loop scr orientation_cast rest = some records) :
    displays_loop scr orientation_cast (m :: rest) =
      some (display_record scr orientation_cast m f n :: records) := by
  simp only [displays_loop, hd, hf, hn, hr, Bool.false_eq_true, if_false]

/-- Every record built by `displays` carries the dpi computed from the global
screen width. -/
theorem displays_loop_dpi (scr : screen_t) (orientation_cast : Nat → orientation_t) (n : Nat)
    (hn : display_dpi scr.width scr.width_mm = some n) :
    ∀ ms : List monitor_t,
      (∀ m ∈ ms, disconnected m = false →
        calculate_frequency scr.modes m.crtc_info.mode ≠ none) →
      ∃ records, displays_loop scr orientation_cast ms = some records ∧
        records.length = (ms.filter (fun m => !disconnected m)).length ∧
        ∀ d ∈ records, d.dpi = n := by
  intro ms
  induction ms with
  | nil =>
    intro _
    exact ⟨[], rfl, rfl, by simp⟩
  | cons m rest ih =>
    intro hf
    obtain ⟨records, hr, hlen, hd⟩ := ih (fun m' hm' => hf m' (List.mem_cons_of_mem _ hm'))
    cases hdis : disconnected m with
    | true =>
      refine ⟨records, ?_, ?_, hd⟩
      · simp [displays_loop, hdis, hr]
      · simp [List.filter_cons, hdis, hlen]
    | false =>
      have hfm := hf m (List.mem_cons_self _ _) hdis
      obtain ⟨f, hfe⟩ := Option.ne_none_iff_exists'.1 hfm
      refine ⟨display_record scr orientation_cast m f n :: records, ?_, ?_, ?_⟩
      · exact displays_loop_cons_connected scr orientation_cast m rest f n records hdis hfe hn hr
      · simp [List.filter_cons, hdis, hlen]
      · intro d hmem
        rcases List.mem_cons.1 hmem with rfl | hmem
        · rfl
        · exact hd d hmem

/-- C11 (as amended): for a screen whose width in pixels is a non-negative
`int`, whose width in millimetres is positive, whose quotient
`q = pixel_width * 25.4 / mm_width` is at most 2^32 - 1 and whose connected
monitors have a defined refresh rate, `displays` builds one record per connected
monitor, and the dpi of every record is `q` truncated to an integer, or one less
than `q` when `q` is itself an integer. -/
theorem displays_dpi_truncated (scr : screen_t) (orientation_cast : Nat → orientation_t)
    (hw0 : 0 ≤ scr.width) (hw1 : scr.width ≤ 2147483647) (hmm : 0 < scr.width_mm)
    (hq : 254 * scr.width ≤ 10 * scr.width_mm * 4294967295)
    (hf : ∀ m ∈ scr.monitors, disconnected m = false →
      calculate_frequency scr.modes m.crtc_info.mode ≠ none) :
    ∃ records, displays (some scr) orientation_cast = some records ∧
      records.length = (scr.monitors.filter (fun m => !disconnected m)).length ∧
      ∀ d ∈ records,
        (d.dpi : Int) = ⌊(scr.width : ℚ) * (127 / 5) / (scr.width_mm : ℚ)⌋ ∨
        ((d.dpi : Int) = ⌊(scr.width : ℚ) * (127 / 5) / (scr.width_mm : ℚ)⌋ - 1 ∧
          ((⌊(scr.width : ℚ) * (127 / 5) / (scr.width_mm : ℚ)⌋ : Int) : ℚ) =
            (scr.width : ℚ) * (127 / 5) / (scr.width_mm : ℚ)) := by
  obtain ⟨n, hn, h1, h2⟩ := display_dpi_bounds scr.width scr.width_mm hw0 hw1 hmm hq
  obtain ⟨records, hr, hlen, hd⟩ := displays_loop_dpi scr orientation_cast n hn scr.monitors hf
  refine ⟨records, by rw [displays_some]; exact hr, hlen, ?_⟩
  intro d hmem
  rw [hd d hmem]
  generalize (scr.width : ℚ) * (127 / 5) / (scr.width_mm : ℚ) = Q at h1 h2 ⊢
  have f1 := Int.floor_le Q
  have hle : (n : Int) ≤ ⌊Q⌋ := Int.le_floor.2 (by exact_mod_cast h1)
  rcases eq_or_lt_of_le hle with heq | hlt
  · exact Or.inl heq
  · right
    have h3 : (n : Int) + 1 ≤ ⌊Q⌋ := by omega
    have h4 : ((n : Int) : ℚ) + 1 ≤ (⌊Q⌋ : ℚ) := by exact_mod_cast h3
    have h5 : ((n : Int) : ℚ) = (n : ℚ) := by norm_cast
    have h6 : (⌊Q⌋ : ℚ) = Q := by linarith
    refine ⟨?_, h6⟩
    have h7 : (⌊Q⌋ : ℚ) - 1 ≤ ((n : Int) : ℚ) := by linarith
    have h8 : ⌊Q⌋ - 1 ≤ (n : Int) := by exact_mod_cast h7
    omega

/-- Witness for `displays_dpi_truncated`: a screen 1920 pixels and 508 mm wide
with one connected monitor in a 60 Hz mode. -/
theorem displays_dpi_truncated_witness :
    ∃ records,
      displays
        (some { monitors := [⟨"eDP-1", 1, 0, 63, ⟨0, 0, 1920, 1080, 9, 1⟩⟩],
                modes := [⟨9, 148500000, 2200, 1125⟩],
                default_depth := 24, width := 1920, width_mm := 508 })
        (fun _ => orientation_t.rotate_0) = some records ∧
      records.length = 1 ∧
      ∀ d ∈ records,
        (d.dpi : Int) = ⌊((1920 : Int) : ℚ) * (127 / 5) / ((508 : Int) : ℚ)⌋ ∨
        ((d.dpi : Int) = ⌊((1920 : Int) : ℚ) * (127 / 5) / ((508 : Int) : ℚ)⌋ - 1 ∧
          ((⌊((1920 : Int) : ℚ) * (127 / 5) / ((508 : Int) : ℚ)⌋ : Int) : ℚ) =
            ((1920 : Int) : ℚ) * (127 / 5) / ((508 : Int) : ℚ)) :=
  displays_dpi_truncated
    { monitors := [⟨"eDP-1", 1, 0, 63, ⟨0, 0, 1920, 1080, 9, 1⟩⟩],
      modes := [⟨9, 148500000, 2200, 1125⟩],
      default_depth := 24, width := 1920, width_mm := 508 }
    (fun _ => orientation_t.rotate_0) (by decide) (by decide) (by decide) (by decide)
    (by
      intro m hm _
      simp only [List.mem_singleton] at hm
      subst hm
      simp [calculate_frequency])

/-- C11 (counterexample): on a screen 1920 pixels and 527 mm wide the quotient
is 92.54 (48768 / 527); the record built by `displays` has dpi 92, which is not a
nearest integer to the quotient, while 93 is. -/
theorem displays_dpi_not_rounded :
    displays
        (some { monitors := [⟨"eDP-1", 1, 0, 63, ⟨0, 0, 1920, 1080, 9, 1⟩⟩],
                modes := [⟨9, 148500000, 2200, 1125⟩],
                default_depth := 24, width := 1920, width_mm := 527 })
        (fun _ => orientation_t.rotate_0) =
      some [{ name := "eDP-1", geometry := ⟨0, 0, 1920, 1080⟩, frequency := 60, bpp := 24,
              dpi := 92, orientation := orientation_t.rotate_0, primary := true,
              scale := 1 }] ∧
    ¬ dpi_round_spec
        { monitors := [⟨"eDP-1", 1, 0, 63, ⟨0, 0, 1920, 1080, 9, 1⟩⟩],
          modes := [⟨9, 148500000, 2200, 1125⟩],
          default_depth := 24, width := 1920, width_mm := 527 }
        [{ name := "eDP-1", geometry := ⟨0, 0, 1920, 1080⟩, frequency := 60, bpp := 24,
           dpi := 92, orientation := orientation_t.rotate_0, primary := true,
           scale := 1 }] ∧
    is_nearest 93 ((1920 : ℚ) * (127 / 5) / 527) := by
  refine ⟨?_, ?_, ?_⟩
  · have hfreq := calculate_frequency_60
    have hbpp : toU32 24 = 24 := by decide
    rw [displays_some]
    dsimp only
    rw [displays_loop_cons_connected _ _ _ [] 60 92 [] (by decide) hfreq display_dpi_1920_527 rfl]
    simp only [display_record, hbpp]
    simp
  · intro h
    have h1 := h _ (List.mem_singleton_self _)
    unfold is_nearest at h1
    rw [abs_le] at h1
    norm_num at h1
  · unfold is_nearest
    rw [abs_le]
    norm_num

end graphics

namespace system

/-! ## Operating system name -/

theorem string_find_le (pat : List Char) :
    ∀ (s : List Char) (pos : Nat), string_find s pat = some pos → pos ≤ s.length := by
  intro s
  induction s with
  | nil =>
    intro pos h
    simp only [string_find] at h
    split at h
    · simp only [Option.some.injEq] at h
      omega
    · exact absurd h (by simp)
  | cons c cs ih =>
    intro pos h
    simp only [string_find] at h
    split at h
    · simp only [Option.some.injEq] at h
      omega
    · cases hf : string_find cs pat with
      | none => simp [hf] at h
      | some k =>
        simp only [hf, Option.map_some', Option.some.injEq] at h
        have := ih k hf
        simp only [List.length_cons]
        omega

/-- On a Windows 11 client whose product name contains `Windows 10` at index
`pos`, `os_name` replaces `pos + 10` characters from there, not 10. -/
theorem os_name_eq (os_ver : version_t) (name : String) (pos : Nat)
    (hp : os_ver.patch ≥ 22000)
    (hfind : string_find name.data "Windows 10".data = some pos) :
    os_name os_ver (some name) (some "Client") =
      some (String.mk (name.data.take pos ++ "Windows 11".data ++
        name.data.drop (pos + (pos + 10)))) := by
  have hle := string_find_le _ _ _ hfind
  simp only [os_name, Option.getD_some, hp, true_and, if_true, hfind, string_replace,
    Option.map]
  rw [if_neg (by omega)]

/-- When the product name starts with `Windows 10`, as the names that Windows
writes do, the replacement is the one the specification describes. -/
theorem os_name_leading (os_ver : version_t) (rest : String) (hp : os_ver.patch ≥ 22000) :
    os_name os_ver (some ("Windows 10" ++ rest)) (some "Client") =
      some ("Windows 11" ++ rest) := by
  have e : "Windows 10".data = ['W', 'i', 'n', 'd', 'o', 'w', 's', ' ', '1', '0'] := rfl
  have hfind : string_find ("Windows 10" ++ rest).data "Windows 10".data = some 0 := by
    rw [String.data_append, e]
    simp [string_find, List.isPrefixOf]
  rw [os_name_eq os_ver _ 0 hp hfind]
  simp only [String.data_append, List.take_zero, List.nil_append, Nat.zero_add, e]
  rfl

/-- C12 (evaluation at the failing input): for the product name
`Microsoft Windows 10 Pro` on a Windows 11 client, `Windows 10` starts at index
10, and `os_name` returns `Microsoft Windows 11`: the characters ` Pro` after
the occurrence are lost, where the replacement described by the specification
is `Microsoft Windows 11 Pro`. -/
theorem os_name_drops_suffix :
    string_find "Microsoft Windows 10 Pro".data "Windows 10".data = some 10 ∧
    os_name { major := 10, minor := 0, patch := 22000, build := 194, codename := "21H2" }
      (some "Microsoft Windows 10 Pro") (some "Client") = some "Microsoft Windows 11" ∧
    replaced_name "Microsoft Windows 10 Pro" 10 = "Microsoft Windows 11 Pro" := by
  decide

end system

end probe
